import Mathlib

/-!
Verification of the discrete Weyl-operator module of QuTIpy
(`qutipy/weyl.py`) together with `qutipy/Pauli/generate_nQubit_Pauli_Z.py`.

The numeric code is embedded shallowly:

* complex floating-point scalars become elements of a field `R` carrying a
  star operation; the claim-level statements instantiate `R := ℂ`;
* the primitive root of unity `np.exp(2*np.pi*1j/d)` becomes an explicit
  parameter `ω : R`, instantiated with `Complex.exp (2*π*I/d)`;
* numpy's duck typing in the `out = 1; for ...: out = tensor(out, ...)`
  folds is captured by the inductive type `NPVal`, whose values are either
  a scalar or a matrix of some shape;
* `np.around(·, 10)` (decimal rounding) is abstracted as a function
  parameter `rnd : R → R`; the ideal (exact-arithmetic) statements take
  `rnd = id`.

The helpers `ket`, `dag`, `eye`, `tensor`, `Tr` live in
`qutipy/general_functions.py`, which is outside the sources provided; they
are modelled from the specification's interface contract (spec section 6),
as marked in their doc comments.
-/

set_option maxHeartbeats 1000000
set_option linter.unusedSectionVars false

namespace QuTIpy

/-- Entry of a `Fin`-indexed matrix read at natural-number positions;
positions outside the shape read as `0`. -/
def entryN {R : Type} [Field R] {m n : ℕ} (A : Matrix (Fin m) (Fin n) R)
    (i j : ℕ) : R :=
  if h : i < m ∧ j < n then A ⟨i, h.1⟩ ⟨j, h.2⟩ else 0

/-- Modelled from the spec (section 6; `qutipy.general_functions` is not in
`src/`): `ket(d,i)` is the d-by-1 column standard basis vector with a 1 in
row `i`. -/
def ket (R : Type) [Field R] (d i : ℕ) : Matrix (Fin d) (Fin 1) R :=
  Matrix.of fun a _ => if (a : ℕ) = i then 1 else 0

/-- Modelled from the spec (section 6): `dag(M)` is the conjugate
transpose. -/
def dag {R : Type} [Field R] [StarRing R] {m n : ℕ}
    (M : Matrix (Fin m) (Fin n) R) : Matrix (Fin n) (Fin m) R :=
  Matrix.conjTranspose M

/-- Modelled from the spec (section 6): `eye(d)` is the d-by-d identity
matrix. -/
def eye (R : Type) [Field R] (d : ℕ) : Matrix (Fin d) (Fin d) R := 1

/-- Modelled from the spec (section 6): `tensor` on two matrix arguments is
the Kronecker product.  This is the `Fin`-indexed Kronecker product with
numpy's index convention `K[i, j] = A[i / p, j / q] * B[i % p, j % q]`. -/
def kron {R : Type} [Field R] {m n p q : ℕ} (A : Matrix (Fin m) (Fin n) R)
    (B : Matrix (Fin p) (Fin q) R) : Matrix (Fin (m * p)) (Fin (n * q)) R :=
  Matrix.of fun i j => entryN A (i / p) (j / q) * entryN B (i % p) (j % q)

/-- Dynamic numpy value: either a python/numpy scalar or a dense matrix of
some shape.  This is the value type flowing through the library's
`out = 1; for index in indices: out = tensor(out, ...)` accumulation
pattern, whose accumulator starts as the scalar `1`. -/
inductive NPVal (R : Type) : Type
  | scalar (c : R)
  | mat (m n : ℕ) (A : Matrix (Fin m) (Fin n) R)

namespace NPVal

/-- Modelled from the spec (section 6): `tensor(A, B)` is the Kronecker
product, with a scalar argument acting by scalar multiplication (so the
scalar `1` is an identity for the left fold). -/
def tensor {R : Type} [Field R] : NPVal R → NPVal R → NPVal R
  | scalar a, scalar b => scalar (a * b)
  | scalar a, mat m n A => mat m n (a • A)
  | mat m n A, scalar b => mat m n (b • A)
  | mat m n A, mat p q B => mat (m * p) (n * q) (kron A B)

/-- Matrix product (`@` in the source).  A shape mismatch or a scalar
operand is a numpy error; it is modelled by the junk value `scalar 0`,
which no code path of the verified claims reaches. -/
def matmul {R : Type} [Field R] : NPVal R → NPVal R → NPVal R
  | mat m n A, mat p q B =>
      if h : n = p then mat m q (A * B.submatrix (finCongr h) id)
      else scalar 0
  | _, _ => scalar 0

/-- Modelled from the spec (section 6): `dag` as it acts on a dynamic
value; on a matrix it is the conjugate transpose. -/
def dagv {R : Type} [Field R] [StarRing R] : NPVal R → NPVal R
  | scalar c => scalar (star c)
  | mat m n A => mat n m (Matrix.conjTranspose A)

/-- Modelled from the spec (section 6): `Tr` is the trace, i.e. the sum of
the diagonal entries. -/
def tr {R : Type} [Field R] : NPVal R → R
  | scalar c => c
  | mat m _ A => ∑ i ∈ Finset.range m, entryN A i i

/-- Entry of a dynamic value at natural-number positions, out-of-range and
scalar reads giving junk. -/
def entry {R : Type} [Field R] : NPVal R → ℕ → ℕ → R
  | scalar c, _, _ => c
  | mat _ _ A, i, j => entryN A i j

end NPVal

/-- Source `weyl.py` lines 31-41: the shift operator, built as
`|1><0|` plus the sum of `|i+1 mod d><i|` for `i = 1, …, d-1`. -/
def discrete_Weyl_X (R : Type) [Field R] [StarRing R] (d : ℕ) :
    Matrix (Fin d) (Fin d) R :=
  ket R d 1 * dag (ket R d 0) +
    ∑ i ∈ Finset.Ico 1 d, ket R d ((i + 1) % d) * dag (ket R d i)

/-- Source `weyl.py` lines 44-56: the phase operator, built as
`|0><0|` plus the sum of `ω^i |i><i|` for `i = 1, …, d-1`, where the code
takes `ω = exp(2πi/d)` (here the parameter `ω`). -/
def discrete_Weyl_Z {R : Type} [Field R] [StarRing R] (ω : R) (d : ℕ) :
    Matrix (Fin d) (Fin d) R :=
  ket R d 0 * dag (ket R d 0) +
    ∑ i ∈ Finset.Ico 1 d, ω ^ i • (ket R d i * dag (ket R d i))

/-- Source `weyl.py` lines 59-64: the discrete Weyl operator `Z^z X^x`
(via `numpy.linalg.matrix_power` and one product). -/
def discrete_Weyl {R : Type} [Field R] [StarRing R] (ω : R) (d z x : ℕ) :
    Matrix (Fin d) (Fin d) R :=
  discrete_Weyl_Z ω d ^ z * discrete_Weyl_X R d ^ x

/-- Source `weyl.py` lines 67-77: the list of all `d^2` discrete Weyl
operators, `z` outer loop, `x` inner loop. -/
def discrete_Weyl_basis {R : Type} [Field R] [StarRing R] (ω : R) (d : ℕ) :
    List (Matrix (Fin d) (Fin d) R) :=
  (List.range d).flatMap fun z =>
    (List.range d).map fun x => discrete_Weyl ω d z x

/-- Shared accumulation loop of `generate_nQudit_X` / `generate_nQudit_Z`
(source `weyl.py` lines 80-111): starting from the scalar `1`, tensor in
`f index` for each entry of the index list. -/
def npFold {R : Type} [Field R] (d : ℕ)
    (f : ℕ → Matrix (Fin d) (Fin d) R) (indices : List ℕ) : NPVal R :=
  indices.foldl (fun out index => NPVal.tensor out (NPVal.mat d d (f index)))
    (NPVal.scalar 1)

/-- Source `weyl.py` lines 80-94: tensor product of powers of the shift
operator along an index list, accumulated from the scalar `1`. -/
def generate_nQudit_X (R : Type) [Field R] [StarRing R] (d : ℕ)
    (indices : List ℕ) : NPVal R :=
  npFold d (fun index => discrete_Weyl_X R d ^ index) indices

/-- Source `weyl.py` lines 97-111: tensor product of powers of the phase
operator along an index list, accumulated from the scalar `1`. -/
def generate_nQudit_Z {R : Type} [Field R] [StarRing R] (ω : R) (d : ℕ)
    (indices : List ℕ) : NPVal R :=
  npFold d (fun index => discrete_Weyl_Z ω d ^ index) indices

/-- The list `itertools.product(range(d), repeat=n)` of all length-`n`
tuples over `[0,d)`, lexicographic with the rightmost position varying
fastest (tuples rendered as lists). -/
def tuples (d : ℕ) : ℕ → List (List ℕ)
  | 0 => [[]]
  | n + 1 => (List.range d).flatMap fun a => (tuples d n).map fun t => a :: t

/-- Source `weyl.py` lines 114-128: all `d^(2n)` n-fold tensor products of
discrete Weyl operators, the `Z`-type tensor as the left factor of each
product and `s1` as the outer loop. -/
def nQudit_discrete_Weyl_basis {R : Type} [Field R] [StarRing R] (ω : R)
    (d n : ℕ) : List (NPVal R) :=
  (tuples d n).flatMap fun s1 =>
    (tuples d n).map fun s2 =>
      NPVal.matmul (generate_nQudit_Z ω d s1) (generate_nQudit_X R d s2)

/-- Python's `str` of a list of naturals, e.g. `"[0, 1]"`; the keys of the
coefficient dictionary of `nQudit_Weyl_coeff`. -/
def pyStr (l : List ℕ) : String :=
  "[" ++ String.intercalate ", " (l.map toString) ++ "]"

/-- Source `weyl.py` lines 184-201: the coefficient table of `X` in the
n-qudit Weyl basis, keyed by stringified index lists; the value is
`(1/d^n) * np.around(Tr(dag(Xs @ Zt) @ X), 10)`, the decimal rounding
`np.around(·, 10)` abstracted as the parameter `rnd`.  The python dict
(whose keys here are pairwise distinct) is modelled by the association
list of its insertions. -/
def nQudit_Weyl_coeff {R : Type} [Field R] [StarRing R] (ω : R)
    (rnd : R → R) (X : NPVal R) (d n : ℕ) :
    List ((String × String) × R) :=
  (tuples d n).flatMap fun s =>
    (tuples d n).map fun t =>
      ((pyStr s, pyStr t),
        (1 / (d : R) ^ n) *
          rnd (NPVal.tr (NPVal.matmul
            (NPVal.dagv (NPVal.matmul (generate_nQudit_X R d s)
              (generate_nQudit_Z ω d t))) X)))

/-- The standard-basis index list `list(np.array(dag(ket(n, c))).flatten())`
of length `n` used by `nQudit_quadratures`: all zeros except a 1 in
position `c`. -/
def stdBasisList (n c : ℕ) : List ℕ :=
  (List.range n).map fun k => if k = c then 1 else 0

/-- Source `weyl.py` lines 148-181: the dictionary of the 2n quadrature
operators, key `2c+1` mapping to the X-type and key `2c+2` to the Z-type
operator at site `c`, as the association list of its insertions. -/
def nQudit_quadratures {R : Type} [Field R] [StarRing R] (ω : R) (d n : ℕ) :
    List (ℕ × NPVal R) :=
  (List.range n).flatMap fun c =>
    [(2 * c + 1, generate_nQudit_X R d (stdBasisList n c)),
     (2 * c + 2, generate_nQudit_Z ω d (stdBasisList n c))]

/-- First value stored under key `k` in an association list (python dict
lookup; the dictionaries in this module have pairwise distinct keys). -/
def lookupKey {R : Type} [Field R] (k : ℕ) :
    List (ℕ × NPVal R) → Option (NPVal R)
  | [] => none
  | kv :: rest => if k = kv.1 then some kv.2 else lookupKey k rest

/-- Dictionary access `S[k]` on an association list; a missing key is a
python `KeyError`, modelled by the junk value `scalar 0`, which no code
path of the verified claims reaches. -/
def dictGet {R : Type} [Field R] (l : List (ℕ × NPVal R)) (k : ℕ) : NPVal R :=
  match lookupKey k l with
  | some v => v
  | none => NPVal.scalar 0

/-- Source `weyl.py` lines 131-145: the matrix of second moments, a
(2n)-by-(2n) complex-stored matrix with entry
`V[i,j] = Tr(X @ S[i+1] @ dag(S[j+1]))`. -/
def nQudit_cov_matrix {R : Type} [Field R] [StarRing R] (ω : R)
    (X : NPVal R) (d n : ℕ) : Matrix (Fin (2 * n)) (Fin (2 * n)) R :=
  Matrix.of fun i j =>
    NPVal.tr (NPVal.matmul
      (NPVal.matmul X (dictGet (nQudit_quadratures ω d n) ((i : ℕ) + 1)))
      (NPVal.dagv (dictGet (nQudit_quadratures ω d n) ((j : ℕ) + 1))))

/-- Numpy's nonnegative remainder `np.mod(a, d)` of an integer by a
positive natural. -/
def npMod (a : ℤ) (d : ℕ) : ℕ := (a % (d : ℤ)).toNat

/-- Source `weyl.py` lines 204-217: the sign-flip permutation
`|i> ↦ |np.mod(-i, d)>`, built as `|0><0|` plus the sum of
`|(-i) mod d><i|` for `i = 1, …, d-1`. -/
def flip_sign (R : Type) [Field R] [StarRing R] (d : ℕ) :
    Matrix (Fin d) (Fin d) R :=
  ket R d 0 * dag (ket R d 0) +
    ∑ i ∈ Finset.Ico 1 d, ket R d (npMod (-(i : ℤ)) d) * dag (ket R d i)

/-- Source `weyl.py` lines 220-249: the qudit CNOT gate
`Σ_i |i><i| ⊗ W_i` with `W_0 = eye(d)` and, for `i ≥ 1`,
`W_i = X^i @ P` (default) or `W_i = X^i` (`alt=True`), where the source's
`tensor` of two matrices is the Kronecker product `kron`. -/
def CNOT_qudit (R : Type) [Field R] [StarRing R] (d : ℕ) (alt : Bool) :
    Matrix (Fin (d * d)) (Fin (d * d)) R :=
  kron (ket R d 0 * dag (ket R d 0)) (eye R d) +
    ∑ i ∈ Finset.Ico 1 d,
      (if alt then kron (ket R d i * dag (ket R d i)) (discrete_Weyl_X R d ^ i)
       else kron (ket R d i * dag (ket R d i))
         (discrete_Weyl_X R d ^ i * flip_sign R d))

/-- Source `Pauli/generate_nQubit_Pauli_Z.py` line 29: the Pauli-Z matrix
`[[1,0],[0,-1]]`. -/
def Sz (R : Type) [Field R] : Matrix (Fin 2) (Fin 2) R :=
  Matrix.of ![![1, 0], ![0, -1]]

/-- Loop of `generate_nQubit_Pauli_Z`: tensor in `eye(2)` for a 0 index and
`Sz` for a 1 index, returning the error string at the first other index
(python's early `return`, hence nothing after that element is processed). -/
def pauliZfold (R : Type) [Field R] (out : NPVal R) :
    List ℤ → Except String (NPVal R)
  | [] => .ok out
  | index :: rest =>
      if index = 0 then pauliZfold R (NPVal.tensor out (NPVal.mat 2 2 (eye R 2))) rest
      else if index = 1 then pauliZfold R (NPVal.tensor out (NPVal.mat 2 2 (Sz R))) rest
      else .error "Error: Indices must be bits, either 0 or 1!"

/-- Source `Pauli/generate_nQubit_Pauli_Z.py` lines 21-41: tensor product
of Pauli-Z factors over a bit list, starting from the scalar `1`; a
non-bit index makes the function return an error string instead of a
matrix. -/
def generate_nQubit_Pauli_Z (R : Type) [Field R] (indices : List ℤ) :
    Except String (NPVal R) :=
  pauliZfold R (NPVal.scalar 1) indices

section EntryLemmas

variable {R : Type} [Field R] [StarRing R]

lemma entryN_of_lt {m n : ℕ} (A : Matrix (Fin m) (Fin n) R) (i : Fin m)
    (j : Fin n) : entryN A (i : ℕ) (j : ℕ) = A i j := by
  unfold entryN
  rw [dif_pos ⟨i.isLt, j.isLt⟩]

lemma outer_apply {d : ℕ} (p q : ℕ) (a b : Fin d) :
    (ket R d p * dag (ket R d q)) a b =
      (if (a : ℕ) = p then (1 : R) else 0) *
        (if (b : ℕ) = q then (1 : R) else 0) := by
  rw [Matrix.mul_apply, Fin.sum_univ_one]
  simp [ket, dag, Matrix.conjTranspose_apply, apply_ite (star : R → R)]

lemma discrete_Weyl_X_apply {d : ℕ} (hd : 2 ≤ d) (a b : Fin d) :
    discrete_Weyl_X R d a b =
      if (a : ℕ) = ((b : ℕ) + 1) % d then 1 else 0 := by
  unfold discrete_Weyl_X
  rw [Matrix.add_apply, Matrix.sum_apply]
  simp only [outer_apply]
  rcases Nat.eq_zero_or_pos (b : ℕ) with hb | hb
  · rw [Finset.sum_eq_zero, hb]
    · have h1 : (1 : ℕ) % d = 1 := Nat.mod_eq_of_lt (by omega)
      simp [h1]
    · intro i hi
      rw [Finset.mem_Ico] at hi
      have : ¬ ((b : ℕ) = i) := by omega
      simp [this]
  · rw [Finset.sum_eq_single_of_mem (b : ℕ)
      (Finset.mem_Ico.mpr ⟨hb, b.isLt⟩)]
    · have : ¬ ((b : ℕ) = 0) := by omega
      simp [this]
    · intro i _ hi
      have : ¬ ((b : ℕ) = i) := fun h => hi h.symm
      simp [this]

lemma discrete_Weyl_Z_apply {d : ℕ} (ω : R) (a b : Fin d) :
    discrete_Weyl_Z ω d a b =
      if a = b then ω ^ (a : ℕ) else 0 := by
  unfold discrete_Weyl_Z
  rw [Matrix.add_apply, Matrix.sum_apply]
  simp only [Matrix.smul_apply, outer_apply, smul_eq_mul]
  rcases Nat.eq_zero_or_pos (b : ℕ) with hb | hb
  · rw [Finset.sum_eq_zero]
    · by_cases hab : a = b
      · subst hab
        simp [hb]
      · have h1 : ¬ ((a : ℕ) = 0) := by
          rw [Fin.ext_iff] at hab; omega
        simp [hab, h1]
    · intro i hi
      rw [Finset.mem_Ico] at hi
      have : ¬ ((b : ℕ) = i) := by omega
      simp [this]
  · rw [Finset.sum_eq_single_of_mem (b : ℕ)
      (Finset.mem_Ico.mpr ⟨hb, b.isLt⟩)]
    · have h0 : ¬ ((b : ℕ) = 0) := by omega
      by_cases hab : a = b
      · subst hab
        simp [h0]
      · have h1 : ¬ ((a : ℕ) = (b : ℕ)) := fun h => hab (Fin.ext h)
        simp [hab, h0, h1]
    · intro i _ hi
      have : ¬ ((b : ℕ) = i) := fun h => hi h.symm
      simp [this]

lemma discrete_Weyl_X_pow_apply {d : ℕ} (hd : 2 ≤ d) (k : ℕ) (a b : Fin d) :
    (discrete_Weyl_X R d ^ k) a b =
      if (a : ℕ) = ((b : ℕ) + k) % d then 1 else 0 := by
  induction k generalizing a b with
  | zero =>
      rw [pow_zero]
      have hmod : ((b : ℕ) + 0) % d = (b : ℕ) := by
        rw [Nat.add_zero, Nat.mod_eq_of_lt b.isLt]
      rw [hmod]
      by_cases hab : a = b
      · subst hab
        simp [Matrix.one_apply]
      · have : ¬ ((a : ℕ) = (b : ℕ)) := fun h => hab (Fin.ext h)
        simp [Matrix.one_apply, hab, this]
  | succ k ih =>
      rw [pow_succ, Matrix.mul_apply]
      have key : ∀ c : Fin d, (discrete_Weyl_X R d ^ k) a c *
          discrete_Weyl_X R d c b =
          if (c : ℕ) = ((b : ℕ) + 1) % d
          then (if (a : ℕ) = ((b : ℕ) + 1 + k) % d then 1 else 0) else 0 := by
        intro c
        rw [ih, discrete_Weyl_X_apply hd]
        by_cases hc : (c : ℕ) = ((b : ℕ) + 1) % d
        · rw [if_pos hc, if_pos hc, mul_one, hc, Nat.mod_add_mod]
        · rw [if_neg hc, if_neg hc, mul_zero]
      rw [Finset.sum_congr rfl fun c _ => key c]
      have hmem : (⟨((b : ℕ) + 1) % d, Nat.mod_lt _ (by omega)⟩ : Fin d) ∈
          Finset.univ := Finset.mem_univ _
      rw [Finset.sum_eq_single_of_mem _ hmem]
      · have harr : (b : ℕ) + (k + 1) = (b : ℕ) + 1 + k := by omega
        simp [harr]
      · intro c _ hc
        rw [if_neg]
        exact fun h => hc (Fin.ext h)

lemma discrete_Weyl_Z_pow_apply {d : ℕ} (ω : R) (k : ℕ) (a b : Fin d) :
    (discrete_Weyl_Z ω d ^ k) a b =
      if a = b then ω ^ (k * (a : ℕ)) else 0 := by
  induction k generalizing a b with
  | zero => simp [Matrix.one_apply]
  | succ k ih =>
      rw [pow_succ, Matrix.mul_apply]
      have key : ∀ c : Fin d, (discrete_Weyl_Z ω d ^ k) a c *
          discrete_Weyl_Z ω d c b =
          if c = b then (if a = b then ω ^ (k * (a : ℕ)) * ω ^ (b : ℕ) else 0)
          else 0 := by
        intro c
        rw [ih, discrete_Weyl_Z_apply]
        by_cases hcb : c = b
        · subst hcb
          by_cases hac : a = c
          · subst hac; simp
          · simp [hac]
        · by_cases hac : a = c
          · subst hac
            simp [hcb, Ne.symm hcb]
          · simp [hac, hcb]
      rw [Finset.sum_congr rfl fun c _ => key c, Finset.sum_ite_eq' _ b _,
        if_pos (Finset.mem_univ b)]
      by_cases hab : a = b
      · subst hab
        rw [if_pos rfl, if_pos rfl, ← pow_add]
        congr 1
        ring
      · rw [if_neg hab, if_neg hab]

lemma pow_mod_of_root {d : ℕ} {ω : R} (hω : ω ^ d = 1) (m : ℕ) :
    ω ^ (m % d) = ω ^ m := by
  conv_rhs => rw [← Nat.div_add_mod m d]
  rw [pow_add, pow_mul, hω, one_pow, one_mul]

lemma pow_congr_mod {d : ℕ} {ω : R} (hω : ω ^ d = 1) {m m' : ℕ}
    (h : m % d = m' % d) : ω ^ m = ω ^ m' := by
  rw [← pow_mod_of_root hω m, h, pow_mod_of_root hω m']

/-- Parametric core of the Weyl commutation relation `Z X = ω (X Z)`. -/
lemma weyl_commutation {d : ℕ} {ω : R} (hd : 2 ≤ d) (hω : ω ^ d = 1) :
    discrete_Weyl_Z ω d * discrete_Weyl_X R d =
      ω • (discrete_Weyl_X R d * discrete_Weyl_Z ω d) := by
  ext a b
  rw [Matrix.smul_apply, Matrix.mul_apply, Matrix.mul_apply]
  have hL : ∀ c : Fin d, discrete_Weyl_Z ω d a c * discrete_Weyl_X R d c b =
      if c = a then (if (a : ℕ) = ((b : ℕ) + 1) % d then ω ^ (a : ℕ) else 0)
      else 0 := by
    intro c
    rw [discrete_Weyl_Z_apply, discrete_Weyl_X_apply hd]
    by_cases hca : c = a
    · rw [hca, if_pos rfl, if_pos rfl, mul_ite, mul_one, mul_zero]
    · have h1 : ¬ a = c := fun h => hca h.symm
      rw [if_neg h1, if_neg hca, zero_mul]
  have hR : ∀ c : Fin d, discrete_Weyl_X R d a c * discrete_Weyl_Z ω d c b =
      if c = b then (if (a : ℕ) = ((b : ℕ) + 1) % d then ω ^ (b : ℕ) else 0)
      else 0 := by
    intro c
    rw [discrete_Weyl_X_apply hd, discrete_Weyl_Z_apply]
    by_cases hcb : c = b
    · rw [hcb, if_pos rfl, if_pos rfl, ite_mul, one_mul, zero_mul]
    · rw [if_neg hcb, if_neg hcb, mul_zero]
  rw [Finset.sum_congr rfl fun c _ => hL c, Finset.sum_ite_eq' _ a _,
    Finset.sum_congr rfl fun c _ => hR c, Finset.sum_ite_eq' _ b _]
  rw [if_pos (Finset.mem_univ a), if_pos (Finset.mem_univ b)]
  by_cases hab : (a : ℕ) = ((b : ℕ) + 1) % d
  · rw [if_pos hab, if_pos hab, smul_eq_mul]
    have h2 : ω ^ (a : ℕ) = ω ^ ((b : ℕ) + 1) := by
      rw [hab, pow_mod_of_root hω]
    rw [h2, pow_succ']
  · rw [if_neg hab, if_neg hab, smul_zero]

end EntryLemmas

/-- Root of unity `w = np.exp(2 * np.pi * 1j / d)` of source `weyl.py`
line 49. -/
noncomputable def wexp (d : ℕ) : ℂ :=
  Complex.exp (2 * Real.pi * Complex.I / d)

lemma wexp_pow_self {d : ℕ} (hd : d ≠ 0) : wexp d ^ d = 1 := by
  unfold wexp
  rw [← Complex.exp_nat_mul]
  have hd0 : (d : ℂ) ≠ 0 := Nat.cast_ne_zero.mpr hd
  have h1 : (d : ℂ) * (2 * Real.pi * Complex.I / d) =
      2 * Real.pi * Complex.I := by
    field_simp
  rw [h1, Complex.exp_two_pi_mul_I]

lemma two_pi_I_ne_zero : (2 : ℂ) * Real.pi * Complex.I ≠ 0 := by
  have hπ : (Real.pi : ℂ) ≠ 0 := by
    exact_mod_cast Complex.ofReal_ne_zero.mpr Real.pi_ne_zero
  exact mul_ne_zero (mul_ne_zero two_ne_zero hπ) Complex.I_ne_zero

lemma star_wexp_mul_self {d : ℕ} : star (wexp d) * wexp d = 1 := by
  unfold wexp
  rw [Complex.star_def, ← Complex.exp_conj, ← Complex.exp_add]
  have h1 : (starRingEnd ℂ) (2 * Real.pi * Complex.I / d) =
      -(2 * Real.pi * Complex.I / d) := by
    rw [map_div₀, map_mul, map_mul, Complex.conj_I]
    simp [map_ofNat]
    ring
  rw [h1, neg_add_cancel, Complex.exp_zero]

lemma wexp_pow_ne_one {d m : ℕ} (hm : 0 < m) (hmd : m < d) :
    wexp d ^ m ≠ 1 := by
  unfold wexp
  rw [← Complex.exp_nat_mul]
  intro hcontra
  rw [Complex.exp_eq_one_iff] at hcontra
  obtain ⟨k, hk⟩ := hcontra
  have hd0 : (d : ℂ) ≠ 0 := Nat.cast_ne_zero.mpr (by omega)
  have h2 : ((m : ℂ) / d) * (2 * Real.pi * Complex.I) =
      (k : ℂ) * (2 * Real.pi * Complex.I) := by
    rw [← hk]
    field_simp
  have h3 : (m : ℂ) / d = (k : ℂ) :=
    mul_right_cancel₀ two_pi_I_ne_zero h2
  have h4 : (m : ℂ) = ((k * d : ℤ) : ℂ) := by
    push_cast
    rw [← h3]
    field_simp
  have h5 : (m : ℤ) = k * d := by exact_mod_cast h4
  rcases le_or_lt k 0 with hk0 | hk0
  · have : k * (d : ℤ) ≤ 0 :=
      mul_nonpos_iff.mpr (Or.inr ⟨hk0, by positivity⟩)
    omega
  · have h6 : (1 : ℤ) ≤ k := hk0
    have : (d : ℤ) ≤ k * d := le_mul_of_one_le_left (by positivity) h6
    omega

lemma wexp_sum_zero {d m : ℕ} (hm : 0 < m) (hmd : m < d) :
    ∑ b ∈ Finset.range d, wexp d ^ (m * b) = 0 := by
  have hζ : wexp d ^ m ≠ 1 := wexp_pow_ne_one hm hmd
  have h1 : ∀ b, wexp d ^ (m * b) = (wexp d ^ m) ^ b := fun b => pow_mul _ _ _
  rw [Finset.sum_congr rfl fun b _ => h1 b, geom_sum_eq hζ]
  have h2 : (wexp d ^ m) ^ d = 1 := by
    rw [← pow_mul, mul_comm, pow_mul, wexp_pow_self (by omega)]
    exact one_pow _
  rw [h2, sub_self, zero_div]

section ShiftSum

variable {R : Type} [Field R] [StarRing R]

lemma shift_bij_sum {d : ℕ} (hd : 0 < d) (x : ℕ) (f : ℕ → R) :
    ∑ b ∈ Finset.range d, f ((b + x) % d) = ∑ b ∈ Finset.range d, f b := by
  have hxd : d * (x / d) + x % d = x := Nat.div_add_mod x d
  have hxlt : x % d < d := Nat.mod_lt _ hd
  have key : ∀ b < d, ((b + x) % d + (d - x % d)) % d = b := by
    intro b hb
    rw [Nat.mod_add_mod]
    have h1 : b + x + (d - x % d) = b + d * (x / d) + d := by omega
    rw [h1, Nat.add_mod_right, Nat.add_mul_mod_self_left, Nat.mod_eq_of_lt hb]
  have key2 : ∀ b < d, ((b + (d - x % d)) % d + x) % d = b := by
    intro b hb
    rw [Nat.mod_add_mod]
    have h1 : b + (d - x % d) + x = b + d * (x / d) + d := by omega
    rw [h1, Nat.add_mod_right, Nat.add_mul_mod_self_left, Nat.mod_eq_of_lt hb]
  refine Finset.sum_nbij' (fun b => (b + x) % d) (fun b => (b + (d - x % d)) % d)
    ?_ ?_ ?_ ?_ ?_
  · intro b hb
    exact Finset.mem_range.mpr (Nat.mod_lt _ hd)
  · intro b hb
    exact Finset.mem_range.mpr (Nat.mod_lt _ hd)
  · intro b hb
    exact key b (Finset.mem_range.mp hb)
  · intro b hb
    exact key2 b (Finset.mem_range.mp hb)
  · intro b hb
    rfl

end ShiftSum

section SingleQudit

variable {R : Type} [Field R] [StarRing R]

lemma dag_apply {m n : ℕ} (M : Matrix (Fin m) (Fin n) R) (a : Fin n)
    (b : Fin m) : dag M a b = star (M b a) := rfl

lemma discrete_Weyl_apply {d : ℕ} (ω : R) (hd : 2 ≤ d) (z x : ℕ)
    (a b : Fin d) :
    discrete_Weyl ω d z x a b =
      ω ^ (z * (a : ℕ)) *
        (if (a : ℕ) = ((b : ℕ) + x) % d then 1 else 0) := by
  unfold discrete_Weyl
  rw [Matrix.mul_apply]
  have key : ∀ c : Fin d,
      (discrete_Weyl_Z ω d ^ z) a c * (discrete_Weyl_X R d ^ x) c b =
      if a = c then ω ^ (z * (a : ℕ)) *
        (if (c : ℕ) = ((b : ℕ) + x) % d then 1 else 0) else 0 := by
    intro c
    rw [discrete_Weyl_Z_pow_apply, discrete_Weyl_X_pow_apply hd, ite_mul,
      zero_mul]
  rw [Finset.sum_congr rfl fun c _ => key c, Finset.sum_ite_eq _ a _,
    if_pos (Finset.mem_univ a)]

lemma star_pow_root {d : ℕ} {ω : R} (hω : ω ^ d = 1)
    (hstar : star ω * ω = 1) (hd : 1 ≤ d) (k : ℕ) :
    star (ω ^ k) = ω ^ ((d - 1) * k) := by
  have h1 : (1 : ℕ) + (d - 1) = d := by omega
  have h2 : ω ^ d = ω * ω ^ (d - 1) := by
    conv_lhs => rw [← h1]
    rw [pow_add, pow_one]
  have hstarω : star ω = ω ^ (d - 1) := by
    calc star ω = star ω * ω ^ d := by rw [hω, mul_one]
      _ = star ω * ω * ω ^ (d - 1) := by rw [h2, mul_assoc]
      _ = ω ^ (d - 1) := by rw [hstar, one_mul]
  rw [star_pow, hstarω, ← pow_mul]

lemma Xpow_mul_dag {d : ℕ} (hd : 2 ≤ d) (x : ℕ) :
    discrete_Weyl_X R d ^ x * dag (discrete_Weyl_X R d ^ x) = 1 := by
  ext a c
  rw [Matrix.mul_apply]
  have key : ∀ b : Fin d,
      (discrete_Weyl_X R d ^ x) a b * dag (discrete_Weyl_X R d ^ x) b c =
      (if (a : ℕ) = ((b : ℕ) + x) % d then 1 else 0) *
        (if (c : ℕ) = ((b : ℕ) + x) % d then 1 else 0) := by
    intro b
    rw [dag_apply, discrete_Weyl_X_pow_apply hd, discrete_Weyl_X_pow_apply hd,
      apply_ite (star : R → R), star_one, star_zero]
  rw [Finset.sum_congr rfl fun b _ => key b, ← Finset.sum_range
    (fun b => (if (a : ℕ) = (b + x) % d then (1 : R) else 0) *
      (if (c : ℕ) = (b + x) % d then 1 else 0))]
  rw [shift_bij_sum (by omega) x
    (fun u => (if (a : ℕ) = u then (1 : R) else 0) *
      (if (c : ℕ) = u then 1 else 0))]
  rw [Finset.sum_eq_single_of_mem (a : ℕ)
    (Finset.mem_range.mpr a.isLt)]
  · by_cases hac : a = c
    · subst hac
      simp [Matrix.one_apply]
    · have : ¬ ((c : ℕ) = (a : ℕ)) := fun h => hac (Fin.ext h.symm)
      simp [Matrix.one_apply, hac, this]
  · intro u _ hu
    rw [if_neg (fun h => hu h.symm), zero_mul]

lemma Zpow_mul_dag {d : ℕ} {ω : R} (hstar : star ω * ω = 1) (z : ℕ) :
    discrete_Weyl_Z ω d ^ z * dag (discrete_Weyl_Z ω d ^ z) = 1 := by
  ext a c
  rw [Matrix.mul_apply]
  have key : ∀ b : Fin d,
      (discrete_Weyl_Z ω d ^ z) a b * dag (discrete_Weyl_Z ω d ^ z) b c =
      if b = a then (if c = a then ω ^ (z * (a : ℕ)) *
        star (ω ^ (z * (c : ℕ))) else 0) else 0 := by
    intro b
    rw [dag_apply, discrete_Weyl_Z_pow_apply, discrete_Weyl_Z_pow_apply]
    by_cases hba : b = a
    · subst hba
      by_cases hcb : c = b
      · subst hcb
        simp [mul_comm]
      · simp [hcb, fun h => hcb (Fin.ext (Fin.ext_iff.mp h).symm)]
    · have h1 : ¬ a = b := fun h => hba h.symm
      simp [h1, hba]
  rw [Finset.sum_congr rfl fun b _ => key b, Finset.sum_ite_eq' _ a _,
    if_pos (Finset.mem_univ a)]
  by_cases hca : c = a
  · subst hca
    rw [if_pos rfl]
    have h3 : ω ^ (z * (c : ℕ)) * star (ω ^ (z * (c : ℕ))) =
        (ω * star ω) ^ (z * (c : ℕ)) := by rw [mul_pow, star_pow]
    rw [h3, mul_comm ω (star ω), hstar, one_pow, Matrix.one_apply_eq]
  · rw [if_neg hca, Matrix.one_apply_ne (fun h => hca h.symm)]

lemma weyl_mul_dag {d : ℕ} {ω : R} (hd : 2 ≤ d) (hstar : star ω * ω = 1)
    (z x : ℕ) :
    discrete_Weyl ω d z x * dag (discrete_Weyl ω d z x) = 1 := by
  have hXd : discrete_Weyl_X R d ^ x * dag (discrete_Weyl_X R d ^ x) = 1 :=
    Xpow_mul_dag hd x
  have hZd : discrete_Weyl_Z ω d ^ z * dag (discrete_Weyl_Z ω d ^ z) = 1 :=
    Zpow_mul_dag hstar z
  have hdag : dag (discrete_Weyl ω d z x) =
      dag (discrete_Weyl_X R d ^ x) * dag (discrete_Weyl_Z ω d ^ z) := by
    unfold discrete_Weyl dag
    exact Matrix.conjTranspose_mul _ _
  rw [hdag]
  unfold discrete_Weyl
  rw [mul_assoc, ← mul_assoc (discrete_Weyl_X R d ^ x), hXd, one_mul, hZd]

lemma fin_shift_sum {d : ℕ} (hd : 0 < d) (x : ℕ) (f : ℕ → R) :
    ∑ b : Fin d, f (((b : ℕ) + x) % d) = ∑ b : Fin d, f (b : ℕ) := by
  have h1 : ∑ b ∈ Finset.range d, f ((b + x) % d) =
      ∑ b : Fin d, f (((b : ℕ) + x) % d) :=
    Finset.sum_range fun b => f ((b + x) % d)
  have h2 : ∑ b ∈ Finset.range d, f b = ∑ b : Fin d, f (b : ℕ) :=
    Finset.sum_range f
  rw [← h1, ← h2]
  exact shift_bij_sum hd x f

lemma fin_root_sum {d m : ℕ} {ω : R}
    (hprim : ∀ m, 0 < m → m < d → ∑ b ∈ Finset.range d, ω ^ (m * b) = 0)
    (hm : 0 < m) (hmd : m < d) :
    ∑ b : Fin d, ω ^ (m * (b : ℕ)) = 0 := by
  have h1 : ∑ b ∈ Finset.range d, ω ^ (m * b) =
      ∑ b : Fin d, ω ^ (m * (b : ℕ)) :=
    Finset.sum_range fun b => ω ^ (m * b)
  rw [← h1]
  exact hprim m hm hmd

lemma add_mod_left_cancel {d a x1 x2 : ℕ} (hx1 : x1 < d) (hx2 : x2 < d)
    (h : (a + x1) % d = (a + x2) % d) : x1 = x2 := by
  have h1 : x1 % d = x2 % d := Nat.ModEq.add_left_cancel' a h
  rwa [Nat.mod_eq_of_lt hx1, Nat.mod_eq_of_lt hx2] at h1

lemma weyl_trace_orth {d : ℕ} {ω : R} (hd : 2 ≤ d) (hω : ω ^ d = 1)
    (hstar : star ω * ω = 1)
    (hprim : ∀ m, 0 < m → m < d → ∑ b ∈ Finset.range d, ω ^ (m * b) = 0)
    {z1 x1 z2 x2 : ℕ} (hz1 : z1 < d) (hx1 : x1 < d) (hz2 : z2 < d)
    (hx2 : x2 < d) :
    Matrix.trace (dag (discrete_Weyl ω d z1 x1) * discrete_Weyl ω d z2 x2) =
      if z1 = z2 ∧ x1 = x2 then (d : R) else 0 := by
  have hd0 : 0 < d := by omega
  have entry2 : ∀ a b : Fin d,
      dag (discrete_Weyl ω d z1 x1) a b * discrete_Weyl ω d z2 x2 b a =
      (star (ω ^ (z1 * (b : ℕ))) * ω ^ (z2 * (b : ℕ))) *
        ((if (b : ℕ) = ((a : ℕ) + x1) % d then (1 : R) else 0) *
          (if (b : ℕ) = ((a : ℕ) + x2) % d then 1 else 0)) := by
    intro a b
    rw [dag_apply, discrete_Weyl_apply ω hd, discrete_Weyl_apply ω hd,
      star_mul', apply_ite (star : R → R), star_one, star_zero]
    ring
  have htr : Matrix.trace (dag (discrete_Weyl ω d z1 x1) *
      discrete_Weyl ω d z2 x2) =
      ∑ a : Fin d, ∑ b : Fin d,
        (star (ω ^ (z1 * (b : ℕ))) * ω ^ (z2 * (b : ℕ))) *
          ((if (b : ℕ) = ((a : ℕ) + x1) % d then (1 : R) else 0) *
            (if (b : ℕ) = ((a : ℕ) + x2) % d then 1 else 0)) := by
    rw [Matrix.trace]
    apply Finset.sum_congr rfl
    intro a _
    rw [Matrix.diag_apply, Matrix.mul_apply]
    exact Finset.sum_congr rfl fun b _ => entry2 a b
  rw [htr]
  by_cases hx : x1 = x2
  · subst hx
    have collapse : ∀ a : Fin d,
        ∑ b : Fin d,
          (star (ω ^ (z1 * (b : ℕ))) * ω ^ (z2 * (b : ℕ))) *
            ((if (b : ℕ) = ((a : ℕ) + x1) % d then (1 : R) else 0) *
              (if (b : ℕ) = ((a : ℕ) + x1) % d then 1 else 0)) =
        star (ω ^ (z1 * (((a : ℕ) + x1) % d))) *
          ω ^ (z2 * (((a : ℕ) + x1) % d)) := by
      intro a
      rw [Finset.sum_eq_single (⟨((a : ℕ) + x1) % d, Nat.mod_lt _ hd0⟩ :
        Fin d)]
      · rw [if_pos rfl, one_mul, mul_one]
      · intro b _ hb
        have hbne : ¬ ((b : ℕ) = ((a : ℕ) + x1) % d) :=
          fun h => hb (Fin.ext h)
        rw [if_neg hbne, zero_mul, mul_zero]
      · intro habs
        exact absurd (Finset.mem_univ _) habs
    rw [Finset.sum_congr rfl fun a _ => collapse a]
    have hshift : ∑ a : Fin d,
        star (ω ^ (z1 * (((a : ℕ) + x1) % d))) *
          ω ^ (z2 * (((a : ℕ) + x1) % d)) =
        ∑ u : Fin d, star (ω ^ (z1 * (u : ℕ))) * ω ^ (z2 * (u : ℕ)) :=
      fin_shift_sum hd0 x1 fun u => star (ω ^ (z1 * u)) * ω ^ (z2 * u)
    rw [hshift]
    have term : ∀ u : Fin d,
        star (ω ^ (z1 * (u : ℕ))) * ω ^ (z2 * (u : ℕ)) =
        ω ^ (((d - 1) * z1 + z2) * (u : ℕ)) := by
      intro u
      rw [star_pow_root hω hstar (by omega), ← pow_add]
      congr 1
      ring
    rw [Finset.sum_congr rfl fun u _ => term u]
    have hdz : (d - 1) * z1 + z1 = d * z1 := by
      have h2 : d - 1 + 1 = d := by omega
      calc (d - 1) * z1 + z1 = (d - 1 + 1) * z1 := by rw [Nat.succ_mul]
        _ = d * z1 := by rw [h2]
    by_cases hz : z1 = z2
    · subst hz
      have hone : ∀ u : Fin d, ω ^ (((d - 1) * z1 + z1) * (u : ℕ)) = 1 := by
        intro u
        rw [hdz, Nat.mul_assoc, pow_mul, hω, one_pow]
      rw [Finset.sum_congr rfl fun u _ => hone u, Finset.sum_const,
        Finset.card_univ, Fintype.card_fin, if_pos ⟨rfl, rfl⟩,
        nsmul_eq_mul, mul_one]
    · have hm : ((d - 1) * z1 + z2) % d ≠ 0 := by
        intro hm0
        apply hz
        have h1 : ((d - 1) * z1 + z2 + z1) % d = z1 % d := by
          rw [Nat.add_mod, hm0, Nat.zero_add,
            Nat.mod_mod_of_dvd z1 (dvd_refl d)]
        have h2 : (d - 1) * z1 + z2 + z1 = d * z1 + z2 := by omega
        have h3 : (d * z1 + z2) % d = z2 % d := by
          rw [Nat.mul_add_mod]
        have h4 : z1 % d = z2 % d := by
          rw [← h1, h2, h3]
        rwa [Nat.mod_eq_of_lt hz1, Nat.mod_eq_of_lt hz2] at h4
      have hterm2 : ∀ u : Fin d,
          ω ^ (((d - 1) * z1 + z2) * (u : ℕ)) =
          ω ^ ((((d - 1) * z1 + z2) % d) * (u : ℕ)) := by
        intro u
        exact pow_congr_mod hω
          ((Nat.ModEq.mul_right (u : ℕ)
            (Nat.mod_modEq ((d - 1) * z1 + z2) d)).symm)
      rw [Finset.sum_congr rfl fun u _ => hterm2 u,
        fin_root_sum hprim (Nat.pos_of_ne_zero hm) (Nat.mod_lt _ hd0),
        if_neg (fun h => hz h.1)]
  · rw [if_neg (fun h => hx h.2)]
    apply Finset.sum_eq_zero
    intro a _
    apply Finset.sum_eq_zero
    intro b _
    by_cases hb1 : (b : ℕ) = ((a : ℕ) + x1) % d
    · have hb2 : ¬ ((b : ℕ) = ((a : ℕ) + x2) % d) := by
        intro hb2
        exact hx (add_mod_left_cancel hx1 hx2 (by rw [← hb1, hb2]))
      rw [if_neg hb2, mul_zero, mul_zero]
    · rw [if_neg hb1, zero_mul, mul_zero]

end SingleQudit

section ListLemmas

variable {α β : Type}

lemma flatMap_length_const (l : List α) (f : α → List β) (L : ℕ)
    (hf : ∀ a ∈ l, (f a).length = L) :
    (l.flatMap f).length = l.length * L := by
  induction l with
  | nil => simp
  | cons a t ih =>
      rw [List.flatMap_cons, List.length_append, hf a (by simp),
        ih fun b hb => hf b (by simp [hb]), List.length_cons]
      ring

lemma getD_map_of_lt (g : α → β) (l : List α) (i : ℕ) (h : i < l.length)
    (da : α) (db : β) : (l.map g).getD i db = g (l.getD i da) := by
  induction l generalizing i with
  | nil => simp at h
  | cons a t ih =>
      cases i with
      | zero => rfl
      | succ i =>
          have h2 : i < t.length := by simpa using h
          simpa using ih i h2

lemma getD_range_of_lt (n i : ℕ) (h : i < n) (da : ℕ) :
    (List.range n).getD i da = i := by
  induction n with
  | zero => omega
  | succ n ih =>
      rw [List.range_succ]
      rcases Nat.lt_or_ge i n with h2 | h2
      · rw [List.getD_append _ _ _ _ (by simpa using h2)]
        exact ih h2
      · have h3 : i = n := by omega
        subst h3
        rw [List.getD_append_right _ _ _ _ (by simp)]
        simp

lemma flatMap_getD (l : List α) (f : α → List β) (L : ℕ)
    (hf : ∀ a ∈ l, (f a).length = L) (i1 i2 : ℕ) (h1 : i1 < l.length)
    (h2 : i2 < L) (da : α) (db : β) :
    (l.flatMap f).getD (i1 * L + i2) db = (f (l.getD i1 da)).getD i2 db := by
  induction l generalizing i1 with
  | nil => simp at h1
  | cons a t ih =>
      rw [List.flatMap_cons]
      cases i1 with
      | zero =>
          rw [Nat.zero_mul, Nat.zero_add,
            List.getD_append _ _ _ _ (by rw [hf a (by simp)]; exact h2)]
          rfl
      | succ i1 =>
          have hlen : (f a).length = L := hf a (by simp)
          have hpos : (i1 + 1) * L + i2 = L + (i1 * L + i2) := by ring
          rw [hpos, List.getD_append_right _ _ _ _ (by omega)]
          have hsub : L + (i1 * L + i2) - (f a).length = i1 * L + i2 := by
            omega
          rw [hsub]
          have h1t : i1 < t.length := by simpa using h1
          simpa using ih (fun b hb => hf b (by simp [hb])) i1 h1t

lemma tuples_length (d n : ℕ) : (tuples d n).length = d ^ n := by
  induction n with
  | zero => rfl
  | succ n ih =>
      unfold tuples
      rw [flatMap_length_const _ _ (d ^ n)
        (fun a _ => by rw [List.length_map, ih]), List.length_range,
        pow_succ, Nat.mul_comm]

lemma mem_tuples {d n : ℕ} {l : List ℕ} :
    l ∈ tuples d n ↔ l.length = n ∧ ∀ x ∈ l, x < d := by
  induction n generalizing l with
  | zero =>
      constructor
      · intro h
        have : l = [] := by simpa [tuples] using h
        subst this
        simp
      · intro ⟨h1, _⟩
        have : l = [] := List.length_eq_zero.mp h1
        subst this
        simp [tuples]
  | succ n ih =>
      constructor
      · intro h
        unfold tuples at h
        rw [List.mem_flatMap] at h
        obtain ⟨a, ha, hl⟩ := h
        rw [List.mem_map] at hl
        obtain ⟨t, ht, rfl⟩ := hl
        rw [List.mem_range] at ha
        obtain ⟨h1, h2⟩ := ih.mp ht
        refine ⟨by simp [h1], ?_⟩
        intro x hx
        rcases List.mem_cons.mp hx with rfl | hx
        · exact ha
        · exact h2 x hx
      · intro ⟨h1, h2⟩
        cases l with
        | nil => simp at h1
        | cons a t =>
            unfold tuples
            rw [List.mem_flatMap]
            refine ⟨a, List.mem_range.mpr (h2 a (by simp)), ?_⟩
            rw [List.mem_map]
            refine ⟨t, ih.mpr ⟨by simpa using h1, fun x hx => h2 x (by simp [hx])⟩, rfl⟩

lemma digit_mod_pow {d n j i : ℕ} (hj : j < n) :
    i % d ^ n / d ^ j % d = i / d ^ j % d := by
  have h1 : i / d ^ j % d ^ (n - j) = i % (d ^ j * d ^ (n - j)) / d ^ j :=
    Nat.div_mod_eq_mod_mul_div i (d ^ j) (d ^ (n - j))
  have h2 : d ^ j * d ^ (n - j) = d ^ n := by
    rw [← pow_add]
    congr 1
    omega
  rw [h2] at h1
  rw [← h1, Nat.mod_mod_of_dvd _ (dvd_pow_self d (by omega : n - j ≠ 0))]

/-- Digits of `i` in base `d`, big-endian at width `n`: the value of
`tuples d n` at position `i`. -/
def digitsBE (d n i : ℕ) : List ℕ :=
  (List.range n).map fun k => i / d ^ (n - 1 - k) % d

lemma digitsBE_succ_left {d n i : ℕ} (hd : 0 < d) (hi : i < d ^ (n + 1)) :
    digitsBE d (n + 1) i = (i / d ^ n) :: digitsBE d n (i % d ^ n) := by
  unfold digitsBE
  rw [List.range_succ_eq_map, List.map_cons, List.map_map]
  congr 1
  · have h1 : n + 1 - 1 - 0 = n := by omega
    rw [h1]
    have h2 : i / d ^ n < d := by
      apply Nat.div_lt_of_lt_mul
      rw [← pow_succ]
      exact hi
    exact Nat.mod_eq_of_lt h2
  · apply List.map_congr_left
    intro k hk
    rw [List.mem_range] at hk
    have h1 : n + 1 - 1 - (k + 1) = n - 1 - k := by omega
    simp only [Function.comp_apply, h1]
    exact (digit_mod_pow (by omega)).symm

lemma digitsBE_succ_right {d n i : ℕ} :
    digitsBE d (n + 1) i = digitsBE d n (i / d) ++ [i % d] := by
  unfold digitsBE
  rw [List.range_succ, List.map_append]
  congr 1
  · apply List.map_congr_left
    intro k hk
    rw [List.mem_range] at hk
    rw [Nat.div_div_eq_div_mul, ← pow_succ']
    have h1 : n - 1 - k + 1 = n + 1 - 1 - k := by omega
    rw [h1]
  · simp

lemma tuples_getD {d n i : ℕ} (hd : 0 < d) (hi : i < d ^ n) :
    (tuples d n).getD i [] = digitsBE d n i := by
  induction n generalizing i with
  | zero =>
      have : i = 0 := by
        have := hi
        simp at this
        omega
      subst this
      rfl
  | succ n ih =>
      have hsplit : i = (i / d ^ n) * d ^ n + i % d ^ n := by
        rw [Nat.mul_comm]
        exact (Nat.div_add_mod i (d ^ n)).symm
      have h1 : i / d ^ n < d := by
        apply Nat.div_lt_of_lt_mul
        rw [← pow_succ]
        exact hi
      have h2 : i % d ^ n < d ^ n := Nat.mod_lt _ (by positivity)
      conv_lhs => rw [hsplit]
      unfold tuples
      rw [flatMap_getD _ _ (d ^ n)
        (fun a _ => by rw [List.length_map, tuples_length])
        _ _ (by simpa using h1) h2 0 []]
      rw [getD_range_of_lt _ _ h1 0,
        getD_map_of_lt _ _ _ (by rw [tuples_length]; exact h2) [] [],
        ih h2, digitsBE_succ_left hd hi]

end ListLemmas

section NPBridge

variable {R : Type} [Field R] [StarRing R]

lemma entryN_out {m n : ℕ} (A : Matrix (Fin m) (Fin n) R) {i j : ℕ}
    (h : ¬ (i < m ∧ j < n)) : entryN A i j = 0 := by
  unfold entryN
  rw [dif_neg h]

lemma entryN_kron {m n p q : ℕ} (A : Matrix (Fin m) (Fin n) R)
    (B : Matrix (Fin p) (Fin q) R) {i j : ℕ} (hi : i < m * p)
    (hj : j < n * q) :
    entryN (kron A B) i j = entryN A (i / p) (j / q) * entryN B (i % p) (j % q) := by
  unfold entryN kron
  rw [dif_pos ⟨hi, hj⟩, Matrix.of_apply]
  rfl

lemma matmul_mat {m n q : ℕ} (A : Matrix (Fin m) (Fin n) R)
    (B : Matrix (Fin n) (Fin q) R) :
    NPVal.matmul (NPVal.mat m n A) (NPVal.mat n q B) =
      NPVal.mat m q (A * B) := by
  simp only [NPVal.matmul]
  rw [dif_pos trivial]
  congr 2

lemma tr_mat {m : ℕ} (A : Matrix (Fin m) (Fin m) R) :
    NPVal.tr (NPVal.mat m m A) = Matrix.trace A := by
  unfold NPVal.tr
  calc ∑ i ∈ Finset.range m, entryN A i i
      = ∑ i : Fin m, entryN A (i : ℕ) (i : ℕ) :=
        Finset.sum_range fun i => entryN A i i
    _ = ∑ i : Fin m, A i i :=
        Finset.sum_congr rfl fun i _ => entryN_of_lt A i i
    _ = Matrix.trace A := by
        rw [Matrix.trace]
        exact Finset.sum_congr rfl fun i _ => rfl

lemma mat_congr {m m' n n' : ℕ} (hm : m = m') (hn : n = n')
    (A : Matrix (Fin m) (Fin n) R) (B : Matrix (Fin m') (Fin n') R)
    (h : ∀ i j : ℕ, entryN A i j = entryN B i j) :
    NPVal.mat m n A = NPVal.mat m' n' B := by
  subst hm
  subst hn
  congr 1
  ext i j
  have h2 := h (i : ℕ) (j : ℕ)
  rw [entryN_of_lt, entryN_of_lt] at h2
  exact h2

lemma npFold_append {d : ℕ} (f : ℕ → Matrix (Fin d) (Fin d) R)
    (t : List ℕ) (a : ℕ) :
    npFold d f (t ++ [a]) =
      NPVal.tensor (npFold d f t) (NPVal.mat d d (f a)) := by
  unfold npFold
  rw [List.foldl_append]
  rfl

lemma digit_div_step {d L k i : ℕ} (hk : k < L) :
    i / d ^ (L - k) % d = i / d / d ^ (L - 1 - k) % d := by
  have h1 : L - 1 - k + 1 = L - k := by omega
  rw [Nat.div_div_eq_div_mul, ← pow_succ', h1]

end NPBridge

/-- Digit-indexed tensor-product matrix: the semantic value of the
accumulation loop of `generate_nQudit_X` / `generate_nQudit_Z` on a
nonempty index list `s`, with entries the products of per-site entries of
`f s_k` at the k-th base-`d` digits (big-endian) of row and column. -/
def digitsMat {R : Type} [Field R] (d : ℕ)
    (f : ℕ → Matrix (Fin d) (Fin d) R) (s : List ℕ) :
    Matrix (Fin (d ^ s.length)) (Fin (d ^ s.length)) R :=
  Matrix.of fun i j => ∏ k ∈ Finset.range s.length,
    entryN (f (s.getD k 0)) ((i : ℕ) / d ^ (s.length - 1 - k) % d)
      ((j : ℕ) / d ^ (s.length - 1 - k) % d)

section NPBridge2

variable {R : Type} [Field R] [StarRing R]

lemma tensor_mat_mat {m n p q : ℕ} (A : Matrix (Fin m) (Fin n) R)
    (B : Matrix (Fin p) (Fin q) R) :
    NPVal.tensor (NPVal.mat m n A) (NPVal.mat p q B) =
      NPVal.mat (m * p) (n * q) (kron A B) := rfl

lemma entryN_digitsMat {d : ℕ} (f : ℕ → Matrix (Fin d) (Fin d) R)
    (s : List ℕ) {i j : ℕ} (hi : i < d ^ s.length) (hj : j < d ^ s.length) :
    entryN (digitsMat d f s) i j =
      ∏ k ∈ Finset.range s.length,
        entryN (f (s.getD k 0)) (i / d ^ (s.length - 1 - k) % d)
          (j / d ^ (s.length - 1 - k) % d) := by
  unfold entryN digitsMat
  rw [dif_pos ⟨hi, hj⟩]
  rfl

/-- Bridge for the tensor-product accumulation loop: on a nonempty index
list of length `n` the fold produces the `d^n`-by-`d^n` matrix
`digitsMat d f s`. -/
lemma npFold_eq_mat {d : ℕ} (f : ℕ → Matrix (Fin d) (Fin d) R)
    (s : List ℕ) (hs : s ≠ []) :
    npFold d f s =
      NPVal.mat (d ^ s.length) (d ^ s.length) (digitsMat d f s) := by
  induction s using List.reverseRecOn with
  | nil => exact absurd rfl hs
  | append_singleton t a ih =>
      rw [npFold_append]
      rcases List.eq_nil_or_concat t with rfl | hconcat
      · have hone : NPVal.tensor (npFold d f []) (NPVal.mat d d (f a)) =
            NPVal.mat d d (f a) := by
          unfold npFold
          rw [List.foldl_nil]
          show NPVal.mat d d ((1 : R) • f a) = NPVal.mat d d (f a)
          rw [one_smul]
        rw [hone]
        simp only [List.nil_append]
        apply mat_congr (pow_one d).symm (pow_one d).symm
        intro i j
        by_cases hij : i < d ∧ j < d
        · rw [entryN_digitsMat f [a] (by simpa using hij.1)
            (by simpa using hij.2)]
          simp only [List.length_singleton, Finset.prod_range_one,
            List.getD_cons_zero, Nat.sub_self, Nat.sub_zero, pow_zero,
            Nat.div_one]
          rw [Nat.mod_eq_of_lt hij.1, Nat.mod_eq_of_lt hij.2]
        · rw [entryN_out _ hij, entryN_out]
          simpa using hij
      · have ht : t ≠ [] := by
          obtain ⟨u, b, huv⟩ := hconcat
          rw [huv]
          simp
        rw [ih ht, tensor_mat_mat]
        have hlen : (t ++ [a]).length = t.length + 1 := by simp
        have hdim : d ^ t.length * d = d ^ (t ++ [a]).length := by
          rw [hlen, pow_succ]
        apply mat_congr hdim hdim
        intro i j
        by_cases hij : i < d ^ t.length * d ∧ j < d ^ t.length * d
        · have hi2 : i < d * d ^ t.length := by rw [Nat.mul_comm]; exact hij.1
          have hj2 : j < d * d ^ t.length := by rw [Nat.mul_comm]; exact hij.2
          have hi3 : i / d < d ^ t.length := Nat.div_lt_of_lt_mul hi2
          have hj3 : j / d < d ^ t.length := Nat.div_lt_of_lt_mul hj2
          rw [entryN_kron _ _ hij.1 hij.2,
            entryN_digitsMat f t hi3 hj3,
            entryN_digitsMat f (t ++ [a]) (by rw [← hdim]; exact hij.1)
              (by rw [← hdim]; exact hij.2)]
          simp only [hlen]
          rw [Finset.prod_range_succ]
          congr 1
          · apply Finset.prod_congr rfl
            intro k hk
            rw [Finset.mem_range] at hk
            rw [List.getD_append _ _ _ _ hk]
            have e1 : t.length + 1 - 1 - k = t.length - k := by omega
            rw [e1, digit_div_step hk, digit_div_step hk]
          · rw [List.getD_append_right _ _ _ _ (le_refl _)]
            have e2 : t.length + 1 - 1 - t.length = 0 := by omega
            simp only [Nat.sub_self, List.getD_cons_zero, e2, pow_zero,
              Nat.div_one]
        · rw [entryN_out _ hij, entryN_out]
          intro hc
          exact hij ⟨by rw [hdim]; exact hc.1, by rw [hdim]; exact hc.2⟩

end NPBridge2

/-- The k-th base-`d` digit (big-endian, width `n`) of `i`. -/
def dig (d n k i : ℕ) : ℕ := i / d ^ (n - 1 - k) % d

/-- Width-`n` digit-indexed tensor-product matrix, as `digitsMat` but with
the width a separate parameter (equal to the list length in use). -/
def siteProdMat {R : Type} [Field R] (d n : ℕ)
    (f : ℕ → Matrix (Fin d) (Fin d) R) (s : List ℕ) :
    Matrix (Fin (d ^ n)) (Fin (d ^ n)) R :=
  Matrix.of fun i j => ∏ k ∈ Finset.range n,
    entryN (f (s.getD k 0)) (dig d n k (i : ℕ)) (dig d n k (j : ℕ))

section DigitLemmas

variable {R : Type} [Field R] [StarRing R]

lemma npFold_eq_mat_of_length {d n : ℕ} (f : ℕ → Matrix (Fin d) (Fin d) R)
    (s : List ℕ) (hl : s.length = n) (hs : s ≠ []) :
    npFold d f s = NPVal.mat (d ^ n) (d ^ n) (siteProdMat d n f s) := by
  subst hl
  exact npFold_eq_mat f s hs

lemma dig_lt {d n k i : ℕ} (hd : 0 < d) : dig d n k i < d :=
  Nat.mod_lt _ hd

lemma dig_step {d n k i : ℕ} (hk : k < n) :
    dig d (n + 1) k i = dig d n k (i / d) := by
  unfold dig
  have h1 : n + 1 - 1 - k = n - k := by omega
  rw [h1, digit_div_step hk]

lemma dig_last {d n i : ℕ} : dig d (n + 1) n i = i % d := by
  unfold dig
  have h1 : n + 1 - 1 - n = 0 := by omega
  rw [h1, pow_zero, Nat.div_one]

lemma dig_inj {d n : ℕ} {i j : ℕ} (hi : i < d ^ n) (hj : j < d ^ n)
    (h : ∀ k < n, dig d n k i = dig d n k j) : i = j := by
  induction n generalizing i j with
  | zero =>
      simp only [pow_zero] at hi hj
      omega
  | succ n ih =>
      have hlast : i % d = j % d := by
        have := h n (by omega)
        rwa [dig_last, dig_last] at this
      have hdiv : i / d = j / d := by
        apply ih
        · apply Nat.div_lt_of_lt_mul
          rw [← pow_succ']
          exact hi
        · apply Nat.div_lt_of_lt_mul
          rw [← pow_succ']
          exact hj
        · intro k hk
          have := h k (by omega)
          rwa [dig_step hk, dig_step hk] at this
      have e1 : i = d * (i / d) + i % d := (Nat.div_add_mod i d).symm
      have e2 : j = d * (j / d) + j % d := (Nat.div_add_mod j d).symm
      rw [e1, e2, hdiv, hlast]

lemma digitsBE_length {d n i : ℕ} : (digitsBE d n i).length = n := by
  simp [digitsBE]

lemma digitsBE_ne_nil {d n i : ℕ} (hn : 1 ≤ n) : digitsBE d n i ≠ [] := by
  intro h
  have := digitsBE_length (d := d) (n := n) (i := i)
  rw [h] at this
  simp at this
  omega

lemma digitsBE_getD {d n k i : ℕ} (hk : k < n) :
    (digitsBE d n i).getD k 0 = dig d n k i := by
  unfold digitsBE dig
  rw [getD_map_of_lt _ _ _ (by simpa using hk) 0 0,
    getD_range_of_lt _ _ hk 0]

lemma digitsBE_mem_tuples {d n i : ℕ} (hd : 0 < d) :
    digitsBE d n i ∈ tuples d n := by
  rw [mem_tuples]
  refine ⟨digitsBE_length, ?_⟩
  intro x hx
  unfold digitsBE at hx
  rw [List.mem_map] at hx
  obtain ⟨k, _, rfl⟩ := hx
  exact Nat.mod_lt _ hd

lemma entryN_Xpow {d : ℕ} (hd : 2 ≤ d) (x : ℕ) {u v : ℕ} (hu : u < d)
    (hv : v < d) :
    entryN (discrete_Weyl_X R d ^ x) u v =
      if u = (v + x) % d then 1 else 0 := by
  unfold entryN
  rw [dif_pos ⟨hu, hv⟩, discrete_Weyl_X_pow_apply hd]

lemma entryN_Zpow {d : ℕ} (ω : R) (z : ℕ) {u v : ℕ} (hu : u < d)
    (hv : v < d) :
    entryN (discrete_Weyl_Z ω d ^ z) u v =
      if u = v then ω ^ (z * u) else 0 := by
  unfold entryN
  rw [dif_pos ⟨hu, hv⟩, discrete_Weyl_Z_pow_apply]
  by_cases huv : u = v
  · subst huv
    rw [if_pos rfl, if_pos rfl]
  · rw [if_neg (fun h => huv (Fin.ext_iff.mp h)), if_neg huv]

end DigitLemmas

section ReconKernel

variable {R : Type} [Field R] [StarRing R]

lemma sum_digits_prod {d : ℕ} (hd : 0 < d) (n : ℕ) (F : ℕ → ℕ → R) :
    ∑ i : Fin (d ^ n), ∏ k ∈ Finset.range n, F k (dig d n k (i : ℕ)) =
      ∏ k ∈ Finset.range n, ∑ w ∈ Finset.range d, F k w := by
  induction n with
  | zero => simp
  | succ n ih =>
      have hcomp : ∑ i : Fin (d ^ (n + 1)),
          ∏ k ∈ Finset.range (n + 1), F k (dig d (n + 1) k (i : ℕ)) =
          ∑ x : Fin (d ^ n) × Fin d,
            ∏ k ∈ Finset.range (n + 1), F k (dig d (n + 1) k
              ((finProdFinEquiv x : Fin (d ^ n * d)) : ℕ)) :=
        (Equiv.sum_comp finProdFinEquiv fun i : Fin (d ^ (n + 1)) =>
          ∏ k ∈ Finset.range (n + 1), F k (dig d (n + 1) k (i : ℕ))).symm
      rw [hcomp, Fintype.sum_prod_type]
      have hbody : ∀ (r : Fin (d ^ n)) (a : Fin d),
          ∏ k ∈ Finset.range (n + 1), F k (dig d (n + 1) k
            ((finProdFinEquiv (r, a) : Fin (d ^ n * d)) : ℕ)) =
          (∏ k ∈ Finset.range n, F k (dig d n k (r : ℕ))) * F n (a : ℕ) := by
        intro r a
        have hval : ((finProdFinEquiv (r, a) : Fin (d ^ n * d)) : ℕ) =
            (a : ℕ) + d * (r : ℕ) := rfl
        rw [hval, Finset.prod_range_succ]
        congr 1
        · apply Finset.prod_congr rfl
          intro k hk
          rw [Finset.mem_range] at hk
          rw [dig_step hk]
          congr 1
          rw [Nat.add_mul_div_left _ _ hd, Nat.div_eq_of_lt a.isLt,
            Nat.zero_add]
        · rw [dig_last, Nat.add_mul_mod_self_left, Nat.mod_eq_of_lt a.isLt]
      rw [Finset.sum_congr rfl fun r _ =>
        Finset.sum_congr rfl fun a _ => hbody r a]
      have hsplit : ∑ r : Fin (d ^ n), ∑ a : Fin d,
          (∏ k ∈ Finset.range n, F k (dig d n k (r : ℕ))) * F n (a : ℕ) =
          (∑ r : Fin (d ^ n), ∏ k ∈ Finset.range n, F k (dig d n k (r : ℕ))) *
            (∑ a : Fin d, F n (a : ℕ)) :=
        (Finset.sum_mul_sum _ _ _ _).symm
      rw [hsplit, ih, Finset.prod_range_succ]
      congr 1
      exact (Finset.sum_range fun w => F n w).symm

lemma root_geom_sum {d : ℕ} {ω : R} (hd : 2 ≤ d) (hω : ω ^ d = 1)
    (hprim : ∀ m, 0 < m → m < d → ∑ b ∈ Finset.range d, ω ^ (m * b) = 0)
    {a b : ℕ} (ha : a < d) (hb : b < d) :
    ∑ w ∈ Finset.range d, ω ^ (((d - 1) * a + b) * w) =
      if b = a then (d : R) else 0 := by
  by_cases hab : b = a
  · subst hab
    have h2 : d - 1 + 1 = d := by omega
    have h1 : (d - 1) * b + b = d * b := by
      calc (d - 1) * b + b = (d - 1 + 1) * b := by rw [Nat.succ_mul]
        _ = d * b := by rw [h2]
    have hone : ∀ w ∈ Finset.range d, ω ^ (((d - 1) * b + b) * w) = 1 := by
      intro w _
      rw [h1, Nat.mul_assoc, pow_mul, hω, one_pow]
    rw [Finset.sum_congr rfl hone, Finset.sum_const, Finset.card_range,
      if_pos rfl, nsmul_eq_mul, mul_one]
  · rw [if_neg hab]
    have hm : ((d - 1) * a + b) % d ≠ 0 := by
      intro hm0
      apply hab
      have h1 : ((d - 1) * a + b + a) % d = a % d := by
        rw [Nat.add_mod, hm0, Nat.zero_add,
          Nat.mod_mod_of_dvd a (dvd_refl d)]
      have h2 : (d - 1) * a + b + a = d * a + b := by
        have h3 : d - 1 + 1 = d := by omega
        have h4 : (d - 1) * a + a = d * a := by
          calc (d - 1) * a + a = (d - 1 + 1) * a := by rw [Nat.succ_mul]
            _ = d * a := by rw [h3]
        omega
      have h3 : (d * a + b) % d = b % d := by rw [Nat.mul_add_mod]
      have h4 : a % d = b % d := by rw [← h1, h2, h3]
      rw [Nat.mod_eq_of_lt ha, Nat.mod_eq_of_lt hb] at h4
      exact h4.symm
    have hterm : ∀ w ∈ Finset.range d, ω ^ (((d - 1) * a + b) * w) =
        ω ^ ((((d - 1) * a + b) % d) * w) := by
      intro w _
      exact pow_congr_mod hω
        ((Nat.ModEq.mul_right w (Nat.mod_modEq ((d - 1) * a + b) d)).symm)
    rw [Finset.sum_congr rfl hterm,
      hprim _ (Nat.pos_of_ne_zero hm) (Nat.mod_lt _ (by omega))]

lemma indicator_shift_sum {d : ℕ} (hd : 0 < d) {v u p : ℕ} (hv : v < d)
    (hp : p < d) :
    ∑ w ∈ Finset.range d,
      (if v = (u + w) % d then (1 : R) else 0) *
        (if p = (u + w) % d then 1 else 0) =
      if v = p then 1 else 0 := by
  have hcomm : ∀ w ∈ Finset.range d,
      (if v = (u + w) % d then (1 : R) else 0) *
        (if p = (u + w) % d then 1 else 0) =
      (fun y => (if v = y then (1 : R) else 0) *
        (if p = y then 1 else 0)) ((w + u) % d) := by
    intro w _
    rw [Nat.add_comm u w]
  rw [Finset.sum_congr rfl hcomm,
    shift_bij_sum hd u fun y =>
      (if v = y then (1 : R) else 0) * (if p = y then 1 else 0)]
  rw [Finset.sum_eq_single_of_mem v (Finset.mem_range.mpr hv)]
  · rw [if_pos rfl, one_mul]
    by_cases hvp : v = p
    · subst hvp
      rw [if_pos rfl]
    · rw [if_neg (fun h => hvp h.symm), if_neg hvp]
  · intro y _ hy
    rw [if_neg (fun h => hy h.symm), zero_mul]

lemma B_sum {d n : ℕ} {ω : R} (hd : 2 ≤ d) (hω : ω ^ d = 1)
    (hstar : star ω * ω = 1)
    (hprim : ∀ m, 0 < m → m < d → ∑ b ∈ Finset.range d, ω ^ (m * b) = 0)
    (u q : Fin (d ^ n)) :
    ∑ i2 : Fin (d ^ n),
      star (ω ^ (∑ k ∈ Finset.range n, dig d n k (i2 : ℕ) * dig d n k (u : ℕ))) *
        ω ^ (∑ k ∈ Finset.range n, dig d n k (i2 : ℕ) * dig d n k (q : ℕ)) =
      if u = q then (d : R) ^ n else 0 := by
  have hd0 : 0 < d := by omega
  have hterm : ∀ i2 : Fin (d ^ n),
      star (ω ^ (∑ k ∈ Finset.range n, dig d n k (i2 : ℕ) * dig d n k (u : ℕ))) *
        ω ^ (∑ k ∈ Finset.range n, dig d n k (i2 : ℕ) * dig d n k (q : ℕ)) =
      ∏ k ∈ Finset.range n,
        ω ^ (((d - 1) * dig d n k (u : ℕ) + dig d n k (q : ℕ)) *
          dig d n k (i2 : ℕ)) := by
    intro i2
    rw [star_pow_root hω hstar (by omega), ← pow_add,
      Finset.prod_pow_eq_pow_sum]
    congr 1
    rw [Finset.mul_sum, ← Finset.sum_add_distrib]
    apply Finset.sum_congr rfl
    intro k _
    ring
  rw [Finset.sum_congr rfl fun i2 _ => hterm i2,
    sum_digits_prod hd0 n fun k w =>
      ω ^ (((d - 1) * dig d n k (u : ℕ) + dig d n k (q : ℕ)) * w)]
  have hfac : ∀ k ∈ Finset.range n,
      ∑ w ∈ Finset.range d,
        ω ^ (((d - 1) * dig d n k (u : ℕ) + dig d n k (q : ℕ)) * w) =
      if dig d n k (q : ℕ) = dig d n k (u : ℕ) then (d : R) else 0 := by
    intro k _
    exact root_geom_sum hd hω hprim (dig_lt hd0) (dig_lt hd0)
  rw [Finset.prod_congr rfl hfac]
  by_cases huq : u = q
  · subst huq
    rw [if_pos rfl, Finset.prod_congr rfl
      (fun k _ => if_pos rfl), Finset.prod_const, Finset.card_range]
  · rw [if_neg huq]
    have hex : ∃ k, k < n ∧ dig d n k (q : ℕ) ≠ dig d n k (u : ℕ) := by
      by_contra hcon
      push_neg at hcon
      exact huq (Fin.ext (dig_inj u.isLt q.isLt
        fun k hk => (hcon k hk).symm))
    obtain ⟨k, hk, hne⟩ := hex
    apply Finset.prod_eq_zero (Finset.mem_range.mpr hk)
    rw [if_neg hne]

lemma A_sum {d n : ℕ} (hd : 2 ≤ d) (v p q : Fin (d ^ n)) :
    ∑ i1 : Fin (d ^ n),
      (∏ k ∈ Finset.range n,
        if dig d n k (v : ℕ) =
          (dig d n k (q : ℕ) + dig d n k (i1 : ℕ)) % d then (1 : R) else 0) *
      (∏ k ∈ Finset.range n,
        if dig d n k (p : ℕ) =
          (dig d n k (q : ℕ) + dig d n k (i1 : ℕ)) % d then (1 : R) else 0) =
      if v = p then 1 else 0 := by
  have hd0 : 0 < d := by omega
  have hterm : ∀ i1 : Fin (d ^ n),
      (∏ k ∈ Finset.range n,
        if dig d n k (v : ℕ) =
          (dig d n k (q : ℕ) + dig d n k (i1 : ℕ)) % d then (1 : R) else 0) *
      (∏ k ∈ Finset.range n,
        if dig d n k (p : ℕ) =
          (dig d n k (q : ℕ) + dig d n k (i1 : ℕ)) % d then (1 : R) else 0) =
      ∏ k ∈ Finset.range n,
        ((if dig d n k (v : ℕ) =
          (dig d n k (q : ℕ) + dig d n k (i1 : ℕ)) % d then (1 : R) else 0) *
         (if dig d n k (p : ℕ) =
          (dig d n k (q : ℕ) + dig d n k (i1 : ℕ)) % d then (1 : R) else 0)) :=
    fun i1 => (Finset.prod_mul_distrib).symm
  rw [Finset.sum_congr rfl fun i1 _ => hterm i1,
    sum_digits_prod hd0 n fun k w =>
      (if dig d n k (v : ℕ) = (dig d n k (q : ℕ) + w) % d then (1 : R) else 0) *
      (if dig d n k (p : ℕ) = (dig d n k (q : ℕ) + w) % d then (1 : R) else 0)]
  have hfac : ∀ k ∈ Finset.range n,
      ∑ w ∈ Finset.range d,
        (if dig d n k (v : ℕ) = (dig d n k (q : ℕ) + w) % d then (1 : R) else 0) *
        (if dig d n k (p : ℕ) = (dig d n k (q : ℕ) + w) % d then (1 : R) else 0) =
      if dig d n k (v : ℕ) = dig d n k (p : ℕ) then (1 : R) else 0 := by
    intro k _
    exact indicator_shift_sum hd0 (dig_lt hd0) (dig_lt hd0)
  rw [Finset.prod_congr rfl hfac]
  by_cases hvp : v = p
  · subst hvp
    rw [if_pos rfl, Finset.prod_congr rfl (fun k _ => if_pos rfl),
      Finset.prod_const, one_pow]
  · rw [if_neg hvp]
    have hex : ∃ k, k < n ∧ dig d n k (v : ℕ) ≠ dig d n k (p : ℕ) := by
      by_contra hcon
      push_neg at hcon
      exact hvp (Fin.ext (dig_inj v.isLt p.isLt hcon))
    obtain ⟨k, hk, hne⟩ := hex
    apply Finset.prod_eq_zero (Finset.mem_range.mpr hk)
    rw [if_neg hne]

end ReconKernel

lemma sum_sum_factor {R : Type} [Field R] {ι : Type} [Fintype ι] (C : R)
    (X Y : ι → R) :
    ∑ a : ι, ∑ b : ι, C * (X a * Y b) =
      C * ((∑ a : ι, X a) * (∑ b : ι, Y b)) := by
  rw [Finset.sum_mul_sum, Finset.mul_sum]
  apply Finset.sum_congr rfl
  intro a _
  rw [Finset.mul_sum]

lemma G_apply {R : Type} [Field R] [StarRing R] {d n : ℕ} {ω : R}
    (hd : 2 ≤ d) (s t : List ℕ) (a b : Fin (d ^ n)) :
    (siteProdMat d n (fun i => discrete_Weyl_X R d ^ i) s *
      siteProdMat d n (fun i => discrete_Weyl_Z ω d ^ i) t) a b =
    (∏ k ∈ Finset.range n,
      if dig d n k (a : ℕ) = (dig d n k (b : ℕ) + s.getD k 0) % d
      then (1 : R) else 0) *
      ω ^ (∑ k ∈ Finset.range n, t.getD k 0 * dig d n k (b : ℕ)) := by
  have hd0 : 0 < d := by omega
  rw [Matrix.mul_apply]
  have hGZ : ∀ c : Fin (d ^ n),
      siteProdMat d n (fun i => discrete_Weyl_Z ω d ^ i) t c b =
      if c = b then
        ω ^ (∑ k ∈ Finset.range n, t.getD k 0 * dig d n k (b : ℕ)) else 0 := by
    intro c
    by_cases hcb : c = b
    · subst hcb
      rw [if_pos rfl]
      unfold siteProdMat
      rw [Matrix.of_apply, ← Finset.prod_pow_eq_pow_sum]
      apply Finset.prod_congr rfl
      intro k _
      rw [entryN_Zpow ω _ (dig_lt hd0) (dig_lt hd0), if_pos rfl]
    · rw [if_neg hcb]
      have hex : ∃ k, k < n ∧ dig d n k (c : ℕ) ≠ dig d n k (b : ℕ) := by
        by_contra hcon
        push_neg at hcon
        exact hcb (Fin.ext (dig_inj c.isLt b.isLt hcon))
      obtain ⟨k, hk, hne⟩ := hex
      unfold siteProdMat
      rw [Matrix.of_apply]
      apply Finset.prod_eq_zero (Finset.mem_range.mpr hk)
      rw [entryN_Zpow ω _ (dig_lt hd0) (dig_lt hd0), if_neg hne]
  have key : ∀ c : Fin (d ^ n),
      siteProdMat d n (fun i => discrete_Weyl_X R d ^ i) s a c *
        siteProdMat d n (fun i => discrete_Weyl_Z ω d ^ i) t c b =
      if c = b then
        siteProdMat d n (fun i => discrete_Weyl_X R d ^ i) s a b *
          ω ^ (∑ k ∈ Finset.range n, t.getD k 0 * dig d n k (b : ℕ)) else 0 := by
    intro c
    rw [hGZ c]
    by_cases hcb : c = b
    · subst hcb
      rw [if_pos rfl, if_pos rfl]
    · rw [if_neg hcb, if_neg hcb, mul_zero]
  rw [Finset.sum_congr rfl fun c _ => key c, Finset.sum_ite_eq' _ b _,
    if_pos (Finset.mem_univ b)]
  congr 1
  unfold siteProdMat
  rw [Matrix.of_apply]
  apply Finset.prod_congr rfl
  intro k _
  rw [entryN_Xpow hd _ (dig_lt hd0) (dig_lt hd0)]

lemma trace_dag_mul {R : Type} [Field R] [StarRing R] {D : ℕ}
    (G Xm : Matrix (Fin D) (Fin D) R) :
    Matrix.trace (dag G * Xm) =
      ∑ u : Fin D, ∑ v : Fin D, star (G v u) * Xm v u := by
  rw [Matrix.trace]
  apply Finset.sum_congr rfl
  intro u _
  rw [Matrix.diag_apply, Matrix.mul_apply]
  apply Finset.sum_congr rfl
  intro v _
  rw [dag_apply]

/-- Weyl reconstruction identity (parametric core of claim C1): entrywise,
the coefficient-weighted sum over all `d^(2n)` Weyl operators
`G(s,t) = X⊗-part · Z⊗-part` of `(1/d^n) Tr(dag G · X) · G` recovers `X`
exactly. -/
lemma weyl_reconstruction {R : Type} [Field R] [StarRing R] {d n : ℕ}
    {ω : R} (hd : 2 ≤ d) (hω : ω ^ d = 1) (hstar : star ω * ω = 1)
    (hprim : ∀ m, 0 < m → m < d → ∑ b ∈ Finset.range d, ω ^ (m * b) = 0)
    (hDR : (d : R) ≠ 0)
    (Xm : Matrix (Fin (d ^ n)) (Fin (d ^ n)) R) (p q : Fin (d ^ n)) :
    ∑ i1 : Fin (d ^ n), ∑ i2 : Fin (d ^ n),
      ((1 / (d : R) ^ n) *
        Matrix.trace (dag
          (siteProdMat d n (fun i => discrete_Weyl_X R d ^ i) (digitsBE d n i1) *
           siteProdMat d n (fun i => discrete_Weyl_Z ω d ^ i) (digitsBE d n i2)) * Xm)) *
      (siteProdMat d n (fun i => discrete_Weyl_X R d ^ i) (digitsBE d n i1) *
       siteProdMat d n (fun i => discrete_Weyl_Z ω d ^ i) (digitsBE d n i2)) p q
      = Xm p q := by
  have hd0 : 0 < d := by omega
  have hGdig : ∀ (i1 i2 : Fin (d ^ n)) (a b : Fin (d ^ n)),
      (siteProdMat d n (fun i => discrete_Weyl_X R d ^ i) (digitsBE d n i1) *
       siteProdMat d n (fun i => discrete_Weyl_Z ω d ^ i) (digitsBE d n i2)) a b =
      (∏ k ∈ Finset.range n,
        if dig d n k (a : ℕ) = (dig d n k (b : ℕ) + dig d n k (i1 : ℕ)) % d
        then (1 : R) else 0) *
        ω ^ (∑ k ∈ Finset.range n, dig d n k (i2 : ℕ) * dig d n k (b : ℕ)) := by
    intro i1 i2 a b
    rw [G_apply hd]
    congr 1
    · exact Finset.prod_congr rfl fun k hk => by
        rw [digitsBE_getD (Finset.mem_range.mp hk)]
    · congr 1
      exact Finset.sum_congr rfl fun k hk => by
        rw [digitsBE_getD (Finset.mem_range.mp hk)]
  have hstarA : ∀ (i1 : Fin (d ^ n)) (a b : Fin (d ^ n)),
      star (∏ k ∈ Finset.range n,
        if dig d n k (a : ℕ) = (dig d n k (b : ℕ) + dig d n k (i1 : ℕ)) % d
        then (1 : R) else 0) =
      ∏ k ∈ Finset.range n,
        if dig d n k (a : ℕ) = (dig d n k (b : ℕ) + dig d n k (i1 : ℕ)) % d
        then (1 : R) else 0 := by
    intro i1 a b
    rw [star_prod]
    apply Finset.prod_congr rfl
    intro k _
    rw [apply_ite (star : R → R), star_one, star_zero]
  have hsummand : ∀ i1 i2 : Fin (d ^ n),
      ((1 / (d : R) ^ n) *
        Matrix.trace (dag
          (siteProdMat d n (fun i => discrete_Weyl_X R d ^ i) (digitsBE d n i1) *
           siteProdMat d n (fun i => discrete_Weyl_Z ω d ^ i) (digitsBE d n i2)) * Xm)) *
      (siteProdMat d n (fun i => discrete_Weyl_X R d ^ i) (digitsBE d n i1) *
       siteProdMat d n (fun i => discrete_Weyl_Z ω d ^ i) (digitsBE d n i2)) p q =
      ∑ u : Fin (d ^ n), ∑ v : Fin (d ^ n),
        (1 / (d : R) ^ n) * Xm v u *
          (((∏ k ∈ Finset.range n,
            if dig d n k (v : ℕ) = (dig d n k (u : ℕ) + dig d n k (i1 : ℕ)) % d
            then (1 : R) else 0) *
           (∏ k ∈ Finset.range n,
            if dig d n k (p : ℕ) = (dig d n k (q : ℕ) + dig d n k (i1 : ℕ)) % d
            then (1 : R) else 0)) *
          (star (ω ^ (∑ k ∈ Finset.range n, dig d n k (i2 : ℕ) * dig d n k (u : ℕ))) *
            ω ^ (∑ k ∈ Finset.range n, dig d n k (i2 : ℕ) * dig d n k (q : ℕ)))) := by
    intro i1 i2
    rw [trace_dag_mul, Finset.mul_sum, Finset.sum_mul]
    apply Finset.sum_congr rfl
    intro u _
    rw [Finset.mul_sum, Finset.sum_mul]
    apply Finset.sum_congr rfl
    intro v _
    rw [hGdig i1 i2 v u, hGdig i1 i2 p q, star_mul', hstarA i1 v u]
    ring
  rw [Finset.sum_congr rfl fun i1 _ =>
    Finset.sum_congr rfl fun i2 _ => hsummand i1 i2]
  have hswap : ∑ i1 : Fin (d ^ n), ∑ i2 : Fin (d ^ n),
      ∑ u : Fin (d ^ n), ∑ v : Fin (d ^ n),
        (1 / (d : R) ^ n) * Xm v u *
          (((∏ k ∈ Finset.range n,
            if dig d n k (v : ℕ) = (dig d n k (u : ℕ) + dig d n k (i1 : ℕ)) % d
            then (1 : R) else 0) *
           (∏ k ∈ Finset.range n,
            if dig d n k (p : ℕ) = (dig d n k (q : ℕ) + dig d n k (i1 : ℕ)) % d
            then (1 : R) else 0)) *
          (star (ω ^ (∑ k ∈ Finset.range n, dig d n k (i2 : ℕ) * dig d n k (u : ℕ))) *
            ω ^ (∑ k ∈ Finset.range n, dig d n k (i2 : ℕ) * dig d n k (q : ℕ)))) =
      ∑ u : Fin (d ^ n), ∑ v : Fin (d ^ n),
      ∑ i1 : Fin (d ^ n), ∑ i2 : Fin (d ^ n),
        (1 / (d : R) ^ n) * Xm v u *
          (((∏ k ∈ Finset.range n,
            if dig d n k (v : ℕ) = (dig d n k (u : ℕ) + dig d n k (i1 : ℕ)) % d
            then (1 : R) else 0) *
           (∏ k ∈ Finset.range n,
            if dig d n k (p : ℕ) = (dig d n k (q : ℕ) + dig d n k (i1 : ℕ)) % d
            then (1 : R) else 0)) *
          (star (ω ^ (∑ k ∈ Finset.range n, dig d n k (i2 : ℕ) * dig d n k (u : ℕ))) *
            ω ^ (∑ k ∈ Finset.range n, dig d n k (i2 : ℕ) * dig d n k (q : ℕ)))) := by
    calc ∑ i1 : Fin (d ^ n), ∑ i2 : Fin (d ^ n), ∑ u : Fin (d ^ n), ∑ v : Fin (d ^ n), _
        = ∑ i1 : Fin (d ^ n), ∑ u : Fin (d ^ n), ∑ i2 : Fin (d ^ n), ∑ v : Fin (d ^ n), _ :=
          Finset.sum_congr rfl fun i1 _ => Finset.sum_comm
      _ = ∑ u : Fin (d ^ n), ∑ i1 : Fin (d ^ n), ∑ i2 : Fin (d ^ n), ∑ v : Fin (d ^ n), _ :=
          Finset.sum_comm
      _ = ∑ u : Fin (d ^ n), ∑ i1 : Fin (d ^ n), ∑ v : Fin (d ^ n), ∑ i2 : Fin (d ^ n), _ :=
          Finset.sum_congr rfl fun u _ => Finset.sum_congr rfl fun i1 _ =>
            Finset.sum_comm
      _ = ∑ u : Fin (d ^ n), ∑ v : Fin (d ^ n), ∑ i1 : Fin (d ^ n), ∑ i2 : Fin (d ^ n), _ :=
          Finset.sum_congr rfl fun u _ => Finset.sum_comm
  rw [hswap]
  have hinner : ∀ u v : Fin (d ^ n),
      ∑ i1 : Fin (d ^ n), ∑ i2 : Fin (d ^ n),
        (1 / (d : R) ^ n) * Xm v u *
          (((∏ k ∈ Finset.range n,
            if dig d n k (v : ℕ) = (dig d n k (u : ℕ) + dig d n k (i1 : ℕ)) % d
            then (1 : R) else 0) *
           (∏ k ∈ Finset.range n,
            if dig d n k (p : ℕ) = (dig d n k (q : ℕ) + dig d n k (i1 : ℕ)) % d
            then (1 : R) else 0)) *
          (star (ω ^ (∑ k ∈ Finset.range n, dig d n k (i2 : ℕ) * dig d n k (u : ℕ))) *
            ω ^ (∑ k ∈ Finset.range n, dig d n k (i2 : ℕ) * dig d n k (q : ℕ)))) =
      (1 / (d : R) ^ n) * Xm v u *
        ((∑ i1 : Fin (d ^ n),
          (∏ k ∈ Finset.range n,
            if dig d n k (v : ℕ) = (dig d n k (u : ℕ) + dig d n k (i1 : ℕ)) % d
            then (1 : R) else 0) *
           (∏ k ∈ Finset.range n,
            if dig d n k (p : ℕ) = (dig d n k (q : ℕ) + dig d n k (i1 : ℕ)) % d
            then (1 : R) else 0)) *
         (∑ i2 : Fin (d ^ n),
          star (ω ^ (∑ k ∈ Finset.range n, dig d n k (i2 : ℕ) * dig d n k (u : ℕ))) *
            ω ^ (∑ k ∈ Finset.range n, dig d n k (i2 : ℕ) * dig d n k (q : ℕ)))) := by
    intro u v
    exact sum_sum_factor ((1 / (d : R) ^ n) * Xm v u)
      (fun i1 : Fin (d ^ n) =>
        (∏ k ∈ Finset.range n,
          if dig d n k (v : ℕ) = (dig d n k (u : ℕ) + dig d n k (i1 : ℕ)) % d
          then (1 : R) else 0) *
        (∏ k ∈ Finset.range n,
          if dig d n k (p : ℕ) = (dig d n k (q : ℕ) + dig d n k (i1 : ℕ)) % d
          then (1 : R) else 0))
      (fun i2 : Fin (d ^ n) =>
        star (ω ^ (∑ k ∈ Finset.range n, dig d n k (i2 : ℕ) * dig d n k (u : ℕ))) *
          ω ^ (∑ k ∈ Finset.range n, dig d n k (i2 : ℕ) * dig d n k (q : ℕ)))
  rw [Finset.sum_congr rfl fun u _ => Finset.sum_congr rfl fun v _ => hinner u v]
  have hcollapse : ∀ u v : Fin (d ^ n),
      (1 / (d : R) ^ n) * Xm v u *
        ((∑ i1 : Fin (d ^ n),
          (∏ k ∈ Finset.range n,
            if dig d n k (v : ℕ) = (dig d n k (u : ℕ) + dig d n k (i1 : ℕ)) % d
            then (1 : R) else 0) *
           (∏ k ∈ Finset.range n,
            if dig d n k (p : ℕ) = (dig d n k (q : ℕ) + dig d n k (i1 : ℕ)) % d
            then (1 : R) else 0)) *
         (∑ i2 : Fin (d ^ n),
          star (ω ^ (∑ k ∈ Finset.range n, dig d n k (i2 : ℕ) * dig d n k (u : ℕ))) *
            ω ^ (∑ k ∈ Finset.range n, dig d n k (i2 : ℕ) * dig d n k (q : ℕ)))) =
      if u = q ∧ v = p then (1 / (d : R) ^ n) * Xm v u * (d : R) ^ n else 0 := by
    intro u v
    rw [B_sum hd hω hstar hprim u q]
    by_cases huq : u = q
    · rw [if_pos huq]
      subst huq
      rw [A_sum hd v p u]
      by_cases hvp : v = p
      · rw [if_pos hvp, if_pos ⟨rfl, hvp⟩, one_mul]
      · rw [if_neg hvp, if_neg (fun h => hvp h.2), zero_mul, mul_zero]
    · rw [if_neg huq, if_neg (fun h => huq h.1), mul_zero, mul_zero]
  rw [Finset.sum_congr rfl fun u _ => Finset.sum_congr rfl fun v _ => hcollapse u v]
  have hfinal : ∑ u : Fin (d ^ n), ∑ v : Fin (d ^ n),
      (if u = q ∧ v = p then (1 / (d : R) ^ n) * Xm v u * (d : R) ^ n else 0) =
      (1 / (d : R) ^ n) * Xm p q * (d : R) ^ n := by
    rw [Finset.sum_eq_single q]
    · rw [Finset.sum_eq_single p]
      · rw [if_pos ⟨rfl, rfl⟩]
      · intro v _ hv
        rw [if_neg (fun h => hv h.2)]
      · intro habs
        exact absurd (Finset.mem_univ _) habs
    · intro u _ hu
      apply Finset.sum_eq_zero
      intro v _
      rw [if_neg (fun h => hu h.1)]
    · intro habs
      exact absurd (Finset.mem_univ _) habs
  rw [hfinal]
  have hpow : ((d : R) ^ n) ≠ 0 := pow_ne_zero n hDR
  field_simp

section BasisLemmas

variable {R : Type} [Field R] [StarRing R]

lemma discrete_Weyl_basis_length (ω : R) (d : ℕ) :
    (discrete_Weyl_basis ω d).length = d ^ 2 := by
  unfold discrete_Weyl_basis
  rw [flatMap_length_const _ _ d
    (fun z _ => by rw [List.length_map, List.length_range]),
    List.length_range]
  ring

lemma discrete_Weyl_basis_getD (ω : R) {d a : ℕ} (ha : a < d ^ 2)
    (M0 : Matrix (Fin d) (Fin d) R) :
    (discrete_Weyl_basis ω d).getD a M0 =
      discrete_Weyl ω d (a / d) (a % d) := by
  have hd0 : 0 < d := by
    rcases Nat.eq_zero_or_pos d with h | h
    · subst h; simp at ha
    · exact h
  have hdd : a < d * d := by
    rw [← pow_two]
    exact ha
  have h1 : a / d < d := Nat.div_lt_of_lt_mul hdd
  have h2 : a % d < d := Nat.mod_lt _ hd0
  conv_lhs => rw [show a = (a / d) * d + a % d by
    rw [Nat.mul_comm]; exact (Nat.div_add_mod a d).symm]
  unfold discrete_Weyl_basis
  rw [flatMap_getD _ _ d (fun z _ => by rw [List.length_map, List.length_range])
    _ _ (by rw [List.length_range]; exact h1) h2 0 M0,
    getD_range_of_lt _ _ h1 0,
    getD_map_of_lt _ _ _ (by rw [List.length_range]; exact h2) 0 M0,
    getD_range_of_lt _ _ h2 0]

end BasisLemmas

section GenBridges

variable {R : Type} [Field R] [StarRing R]

lemma dagv_mat {m n : ℕ} (A : Matrix (Fin m) (Fin n) R) :
    NPVal.dagv (NPVal.mat m n A) = NPVal.mat n m (dag A) := rfl

lemma entry_mat {m n : ℕ} (A : Matrix (Fin m) (Fin n) R) (i j : ℕ) :
    NPVal.entry (NPVal.mat m n A) i j = entryN A i j := rfl

lemma genX_digits {d n : ℕ} (hn : 1 ≤ n) (i : ℕ) :
    generate_nQudit_X R d (digitsBE d n i) =
      NPVal.mat (d ^ n) (d ^ n)
        (siteProdMat d n (fun k => discrete_Weyl_X R d ^ k) (digitsBE d n i)) :=
  npFold_eq_mat_of_length _ _ digitsBE_length (digitsBE_ne_nil hn)

lemma genZ_digits {d n : ℕ} (ω : R) (hn : 1 ≤ n) (i : ℕ) :
    generate_nQudit_Z ω d (digitsBE d n i) =
      NPVal.mat (d ^ n) (d ^ n)
        (siteProdMat d n (fun k => discrete_Weyl_Z ω d ^ k) (digitsBE d n i)) :=
  npFold_eq_mat_of_length _ _ digitsBE_length (digitsBE_ne_nil hn)

lemma coeff_getD (ω : R) (rnd : R → R) (X : NPVal R) {d n i1 i2 : ℕ}
    (h1 : i1 < d ^ n) (h2 : i2 < d ^ n) (junk : (String × String) × R) :
    (nQudit_Weyl_coeff ω rnd X d n).getD (i1 * d ^ n + i2) junk =
      ((pyStr ((tuples d n).getD i1 []), pyStr ((tuples d n).getD i2 [])),
        (1 / (d : R) ^ n) * rnd (NPVal.tr (NPVal.matmul
          (NPVal.dagv (NPVal.matmul
            (generate_nQudit_X R d ((tuples d n).getD i1 []))
            (generate_nQudit_Z ω d ((tuples d n).getD i2 [])))) X))) := by
  unfold nQudit_Weyl_coeff
  rw [flatMap_getD _ _ (d ^ n)
    (fun a _ => by rw [List.length_map, tuples_length]) _ _
    (by rw [tuples_length]; exact h1) h2 [] junk,
    getD_map_of_lt _ _ _ (by rw [tuples_length]; exact h2) [] junk]

lemma coeff_value_digits {d n : ℕ} (ω : R) (hn : 1 ≤ n)
    (Xm : Matrix (Fin (d ^ n)) (Fin (d ^ n)) R) (i1 i2 : ℕ) :
    NPVal.tr (NPVal.matmul (NPVal.dagv (NPVal.matmul
      (generate_nQudit_X R d (digitsBE d n i1))
      (generate_nQudit_Z ω d (digitsBE d n i2))))
      (NPVal.mat (d ^ n) (d ^ n) Xm)) =
    Matrix.trace (dag
      (siteProdMat d n (fun k => discrete_Weyl_X R d ^ k) (digitsBE d n i1) *
       siteProdMat d n (fun k => discrete_Weyl_Z ω d ^ k) (digitsBE d n i2)) *
      Xm) := by
  rw [genX_digits hn, genZ_digits ω hn, matmul_mat, dagv_mat, matmul_mat,
    tr_mat]

lemma nQudit_basis_length (ω : R) (d n : ℕ) :
    (nQudit_discrete_Weyl_basis ω d n).length = d ^ n * d ^ n := by
  unfold nQudit_discrete_Weyl_basis
  rw [flatMap_length_const _ _ (d ^ n)
    (fun a _ => by rw [List.length_map, tuples_length]), tuples_length]

lemma nQudit_basis_getD (ω : R) {d n i1 i2 : ℕ} (h1 : i1 < d ^ n)
    (h2 : i2 < d ^ n) :
    (nQudit_discrete_Weyl_basis ω d n).getD (i1 * d ^ n + i2)
      (NPVal.scalar 0) =
    NPVal.matmul (generate_nQudit_Z ω d ((tuples d n).getD i1 []))
      (generate_nQudit_X R d ((tuples d n).getD i2 [])) := by
  unfold nQudit_discrete_Weyl_basis
  rw [flatMap_getD _ _ (d ^ n)
    (fun a _ => by rw [List.length_map, tuples_length]) _ _
    (by rw [tuples_length]; exact h1) h2 [] (NPVal.scalar 0),
    getD_map_of_lt _ _ _ (by rw [tuples_length]; exact h2) [] _]

end GenBridges

/-- Claim C9.  Empty-index-list edge case: for every `d ≥ 2`,
`generate_nQudit_X(d, [])` and `generate_nQudit_Z(d, [])` return the
python scalar `1` (the identity of the left fold) and not a matrix of any
shape; on a nonempty index list the left fold starting from that scalar
produces the `d^len`-by-`d^len` tensor-product matrix. -/
theorem claim_C9 (d : ℕ) (hd : 2 ≤ d) :
    generate_nQudit_X ℂ d [] = NPVal.scalar 1 ∧
    generate_nQudit_Z (wexp d) d [] = NPVal.scalar 1 ∧
    (∀ (m k : ℕ) (A : Matrix (Fin m) (Fin k) ℂ),
      generate_nQudit_X ℂ d [] ≠ NPVal.mat m k A) ∧
    (∀ (m k : ℕ) (A : Matrix (Fin m) (Fin k) ℂ),
      generate_nQudit_Z (wexp d) d [] ≠ NPVal.mat m k A) ∧
    (∀ s : List ℕ, s ≠ [] →
      generate_nQudit_X ℂ d s = NPVal.mat (d ^ s.length) (d ^ s.length)
        (siteProdMat d s.length (fun i => discrete_Weyl_X ℂ d ^ i) s)) ∧
    (∀ s : List ℕ, s ≠ [] →
      generate_nQudit_Z (wexp d) d s = NPVal.mat (d ^ s.length) (d ^ s.length)
        (siteProdMat d s.length (fun i => discrete_Weyl_Z (wexp d) d ^ i) s)) := by
  refine ⟨rfl, rfl, ?_, ?_, ?_, ?_⟩
  · intro m k A h
    exact NPVal.noConfusion h
  · intro m k A h
    exact NPVal.noConfusion h
  · intro s hs
    exact npFold_eq_mat_of_length _ _ rfl hs
  · intro s hs
    exact npFold_eq_mat_of_length _ _ rfl hs

/-- Witness for C9 at the concrete dimension `d = 2`. -/
theorem claim_C9_witness :
    generate_nQudit_X ℂ 2 [] = NPVal.scalar 1 ∧
    generate_nQudit_Z (wexp 2) 2 [] = NPVal.scalar 1 ∧
    (∀ (m k : ℕ) (A : Matrix (Fin m) (Fin k) ℂ),
      generate_nQudit_X ℂ 2 [] ≠ NPVal.mat m k A) ∧
    (∀ (m k : ℕ) (A : Matrix (Fin m) (Fin k) ℂ),
      generate_nQudit_Z (wexp 2) 2 [] ≠ NPVal.mat m k A) ∧
    (∀ s : List ℕ, s ≠ [] →
      generate_nQudit_X ℂ 2 s = NPVal.mat (2 ^ s.length) (2 ^ s.length)
        (siteProdMat 2 s.length (fun i => discrete_Weyl_X ℂ 2 ^ i) s)) ∧
    (∀ s : List ℕ, s ≠ [] →
      generate_nQudit_Z (wexp 2) 2 s = NPVal.mat (2 ^ s.length) (2 ^ s.length)
        (siteProdMat 2 s.length (fun i => discrete_Weyl_Z (wexp 2) 2 ^ i) s)) :=
  claim_C9 2 (by norm_num)

/-- Claim C8.  n-qudit Weyl basis enumeration: for every `d ≥ 2`, `n ≥ 1`,
the list has exactly `d^(2n)` entries; the entry at position
`i1 * d^n + i2` is `Z-tensor(s1) @ X-tensor(s2)` (Z-tensor the left
factor) for `s1`, `s2` the `i1`-th and `i2`-th tuples; the `i`-th tuple
is the big-endian base-`d` digit string of `i` (itertools product order:
lexicographic, rightmost fastest, `s1` the outer loop); and the tuples
range exactly over `[0,d)^n`. -/
theorem claim_C8 (d n : ℕ) (hd : 2 ≤ d) (hn : 1 ≤ n) :
    (nQudit_discrete_Weyl_basis (wexp d) d n).length = d ^ (2 * n) ∧
    (∀ i1 i2 : ℕ, i1 < d ^ n → i2 < d ^ n →
      (nQudit_discrete_Weyl_basis (wexp d) d n).getD (i1 * d ^ n + i2)
        (NPVal.scalar 0) =
      NPVal.matmul (generate_nQudit_Z (wexp d) d (digitsBE d n i1))
        (generate_nQudit_X ℂ d (digitsBE d n i2))) ∧
    (∀ i : ℕ, i < d ^ n → (tuples d n).getD i [] = digitsBE d n i) ∧
    (∀ l : List ℕ, l ∈ tuples d n ↔ l.length = n ∧ ∀ x ∈ l, x < d) := by
  have hd0 : 0 < d := by omega
  refine ⟨?_, ?_, fun i hi => tuples_getD hd0 hi, fun l => mem_tuples⟩
  · rw [nQudit_basis_length, two_mul, pow_add]
  · intro i1 i2 h1 h2
    rw [nQudit_basis_getD (wexp d) h1 h2, tuples_getD hd0 h1,
      tuples_getD hd0 h2]

/-- Witness for C8 at the concrete input `d = 2`, `n = 1`. -/
theorem claim_C8_witness :
    (nQudit_discrete_Weyl_basis (wexp 2) 2 1).length = 2 ^ (2 * 1) ∧
    (∀ i1 i2 : ℕ, i1 < 2 ^ 1 → i2 < 2 ^ 1 →
      (nQudit_discrete_Weyl_basis (wexp 2) 2 1).getD (i1 * 2 ^ 1 + i2)
        (NPVal.scalar 0) =
      NPVal.matmul (generate_nQudit_Z (wexp 2) 2 (digitsBE 2 1 i1))
        (generate_nQudit_X ℂ 2 (digitsBE 2 1 i2))) ∧
    (∀ i : ℕ, i < 2 ^ 1 → (tuples 2 1).getD i [] = digitsBE 2 1 i) ∧
    (∀ l : List ℕ, l ∈ tuples 2 1 ↔ l.length = 1 ∧ ∀ x ∈ l, x < 2) :=
  claim_C8 2 1 (by norm_num) (by norm_num)

/-- Claim C3.  Coefficient table of the Weyl decomposition: for every
`d ≥ 2`, `n ≥ 1` and operator `X`, the table contains, for each pair of
index lists `(s, t)` in the `[0,d)^n` grid, the entry keyed by
`(str(s), str(t))` with value `(1/d^n) · rnd(Tr(dag(Xs @ Zt) @ X))`
(`rnd` abstracting the 10-decimal rounding `np.around(·, 10)` of the
source), every table entry is of this form, the tuple grid is exactly
`[0,d)^n`, and the table has `d^(2n)` entries. -/
theorem claim_C3 (d n : ℕ) (hd : 2 ≤ d) (hn : 1 ≤ n) (rnd : ℂ → ℂ)
    (X : NPVal ℂ) :
    (∀ s t : List ℕ, s ∈ tuples d n → t ∈ tuples d n →
      ((pyStr s, pyStr t),
        (1 / (d : ℂ) ^ n) * rnd (NPVal.tr (NPVal.matmul
          (NPVal.dagv (NPVal.matmul (generate_nQudit_X ℂ d s)
            (generate_nQudit_Z (wexp d) d t))) X))) ∈
        nQudit_Weyl_coeff (wexp d) rnd X d n) ∧
    (∀ kv ∈ nQudit_Weyl_coeff (wexp d) rnd X d n,
      ∃ s t, s ∈ tuples d n ∧ t ∈ tuples d n ∧
        kv = ((pyStr s, pyStr t),
          (1 / (d : ℂ) ^ n) * rnd (NPVal.tr (NPVal.matmul
            (NPVal.dagv (NPVal.matmul (generate_nQudit_X ℂ d s)
              (generate_nQudit_Z (wexp d) d t))) X)))) ∧
    (∀ l : List ℕ, l ∈ tuples d n ↔ l.length = n ∧ ∀ x ∈ l, x < d) ∧
    (nQudit_Weyl_coeff (wexp d) rnd X d n).length = d ^ (2 * n) := by
  refine ⟨?_, ?_, fun l => mem_tuples, ?_⟩
  · intro s t hs ht
    unfold nQudit_Weyl_coeff
    rw [List.mem_flatMap]
    exact ⟨s, hs, List.mem_map.mpr ⟨t, ht, rfl⟩⟩
  · intro kv hkv
    unfold nQudit_Weyl_coeff at hkv
    rw [List.mem_flatMap] at hkv
    obtain ⟨s, hs, hkv⟩ := hkv
    rw [List.mem_map] at hkv
    obtain ⟨t, ht, rfl⟩ := hkv
    exact ⟨s, t, hs, ht, rfl⟩
  · unfold nQudit_Weyl_coeff
    rw [flatMap_length_const _ _ (d ^ n)
      (fun a _ => by rw [List.length_map, tuples_length]), tuples_length,
      two_mul, pow_add]

/-- Witness for C3 at the concrete input `d = 2`, `n = 1`, `rnd = id`,
`X = scalar 0`. -/
theorem claim_C3_witness :
    (∀ s t : List ℕ, s ∈ tuples 2 1 → t ∈ tuples 2 1 →
      ((pyStr s, pyStr t),
        (1 / (2 : ℂ) ^ 1) * id (NPVal.tr (NPVal.matmul
          (NPVal.dagv (NPVal.matmul (generate_nQudit_X ℂ 2 s)
            (generate_nQudit_Z (wexp 2) 2 t))) (NPVal.scalar 0)))) ∈
        nQudit_Weyl_coeff (wexp 2) id (NPVal.scalar 0) 2 1) ∧
    (∀ kv ∈ nQudit_Weyl_coeff (wexp 2) id (NPVal.scalar 0) 2 1,
      ∃ s t, s ∈ tuples 2 1 ∧ t ∈ tuples 2 1 ∧
        kv = ((pyStr s, pyStr t),
          (1 / (2 : ℂ) ^ 1) * id (NPVal.tr (NPVal.matmul
            (NPVal.dagv (NPVal.matmul (generate_nQudit_X ℂ 2 s)
              (generate_nQudit_Z (wexp 2) 2 t))) (NPVal.scalar 0))))) ∧
    (∀ l : List ℕ, l ∈ tuples 2 1 ↔ l.length = 1 ∧ ∀ x ∈ l, x < 2) ∧
    (nQudit_Weyl_coeff (wexp 2) id (NPVal.scalar 0) 2 1).length = 2 ^ (2 * 1) :=
  claim_C3 2 1 (by norm_num) (by norm_num) id (NPVal.scalar 0)

/-- Claim C1.  Round-trip of the Weyl decomposition, in ideal (exact)
arithmetic, i.e. with the decimal rounding taken as the identity: the
coefficient table built from `X` has at position `i1 * d^n + i2` the key
`(str(s), str(t))` for the `i1`-th and `i2`-th index tuples, and the sum
of `coefficient · (X-tensor(s) @ Z-tensor(t))` over all `d^(2n)` pairs
recovers `X` entrywise exactly (hence within any tolerance, in
particular `1e-8`). -/
theorem claim_C1 (d n : ℕ) (hd : 2 ≤ d) (hn : 1 ≤ n)
    (Xm : Matrix (Fin (d ^ n)) (Fin (d ^ n)) ℂ) :
    (∀ i1 i2 : Fin (d ^ n),
      ((nQudit_Weyl_coeff (wexp d) id (NPVal.mat (d ^ n) (d ^ n) Xm) d n).getD
        ((i1 : ℕ) * d ^ n + (i2 : ℕ)) (("", ""), 0)).1 =
      (pyStr (digitsBE d n (i1 : ℕ)), pyStr (digitsBE d n (i2 : ℕ)))) ∧
    (∀ p q : Fin (d ^ n),
      ∑ i1 : Fin (d ^ n), ∑ i2 : Fin (d ^ n),
        ((nQudit_Weyl_coeff (wexp d) id (NPVal.mat (d ^ n) (d ^ n) Xm) d n).getD
          ((i1 : ℕ) * d ^ n + (i2 : ℕ)) (("", ""), 0)).2 *
        NPVal.entry (NPVal.matmul
          (generate_nQudit_X ℂ d (digitsBE d n (i1 : ℕ)))
          (generate_nQudit_Z (wexp d) d (digitsBE d n (i2 : ℕ))))
          (p : ℕ) (q : ℕ)
        = Xm p q) := by
  have hd0 : 0 < d := by omega
  constructor
  · intro i1 i2
    rw [coeff_getD (wexp d) id _ i1.isLt i2.isLt (("", ""), 0),
      tuples_getD hd0 i1.isLt, tuples_getD hd0 i2.isLt]
  · intro p q
    have hsummand : ∀ i1 i2 : Fin (d ^ n),
        ((nQudit_Weyl_coeff (wexp d) id (NPVal.mat (d ^ n) (d ^ n) Xm) d n).getD
          ((i1 : ℕ) * d ^ n + (i2 : ℕ)) (("", ""), 0)).2 *
        NPVal.entry (NPVal.matmul
          (generate_nQudit_X ℂ d (digitsBE d n (i1 : ℕ)))
          (generate_nQudit_Z (wexp d) d (digitsBE d n (i2 : ℕ))))
          (p : ℕ) (q : ℕ) =
        ((1 / (d : ℂ) ^ n) *
          Matrix.trace (dag
            (siteProdMat d n (fun i => discrete_Weyl_X ℂ d ^ i) (digitsBE d n (i1 : ℕ)) *
             siteProdMat d n (fun i => discrete_Weyl_Z (wexp d) d ^ i) (digitsBE d n (i2 : ℕ))) * Xm)) *
        (siteProdMat d n (fun i => discrete_Weyl_X ℂ d ^ i) (digitsBE d n (i1 : ℕ)) *
         siteProdMat d n (fun i => discrete_Weyl_Z (wexp d) d ^ i) (digitsBE d n (i2 : ℕ))) p q := by
      intro i1 i2
      rw [coeff_getD (wexp d) id _ i1.isLt i2.isLt (("", ""), 0),
        tuples_getD hd0 i1.isLt, tuples_getD hd0 i2.isLt]
      rw [genX_digits hn, genZ_digits (wexp d) hn, matmul_mat, entry_mat,
        entryN_of_lt]
      congr 2
      rw [id_eq, ← coeff_value_digits (wexp d) hn Xm (i1 : ℕ) (i2 : ℕ),
        genX_digits hn, genZ_digits (wexp d) hn, matmul_mat, dagv_mat,
        matmul_mat, tr_mat]
    rw [Finset.sum_congr rfl fun i1 _ => Finset.sum_congr rfl fun i2 _ =>
      hsummand i1 i2]
    exact weyl_reconstruction hd (wexp_pow_self (by omega))
      star_wexp_mul_self (fun m hm hmd => wexp_sum_zero hm hmd)
      (Nat.cast_ne_zero.mpr (by omega)) Xm p q

/-- Witness for C1 at the concrete input `d = 2`, `n = 1`,
`X = identity`. -/
theorem claim_C1_witness :
    (∀ i1 i2 : Fin (2 ^ 1),
      ((nQudit_Weyl_coeff (wexp 2) id (NPVal.mat (2 ^ 1) (2 ^ 1) 1) 2 1).getD
        ((i1 : ℕ) * 2 ^ 1 + (i2 : ℕ)) (("", ""), 0)).1 =
      (pyStr (digitsBE 2 1 (i1 : ℕ)), pyStr (digitsBE 2 1 (i2 : ℕ)))) ∧
    (∀ p q : Fin (2 ^ 1),
      ∑ i1 : Fin (2 ^ 1), ∑ i2 : Fin (2 ^ 1),
        ((nQudit_Weyl_coeff (wexp 2) id (NPVal.mat (2 ^ 1) (2 ^ 1) 1) 2 1).getD
          ((i1 : ℕ) * 2 ^ 1 + (i2 : ℕ)) (("", ""), 0)).2 *
        NPVal.entry (NPVal.matmul
          (generate_nQudit_X ℂ 2 (digitsBE 2 1 (i1 : ℕ)))
          (generate_nQudit_Z (wexp 2) 2 (digitsBE 2 1 (i2 : ℕ))))
          (p : ℕ) (q : ℕ)
        = (1 : Matrix (Fin (2 ^ 1)) (Fin (2 ^ 1)) ℂ) p q) :=
  claim_C1 2 1 (by norm_num) (by norm_num) 1

section Quadratures

variable {R : Type} [Field R] [StarRing R]

lemma lookupKey_append {k : ℕ} {l1 l2 : List (ℕ × NPVal R)} :
    lookupKey k (l1 ++ l2) =
      match lookupKey k l1 with
      | some v => some v
      | none => lookupKey k l2 := by
  induction l1 with
  | nil => rfl
  | cons kv rest ih =>
      by_cases hk : k = kv.1
      · simp [lookupKey, hk]
      · simp [lookupKey, hk, ih]

lemma lookupKey_none {k : ℕ} {l : List (ℕ × NPVal R)}
    (h : ∀ kv ∈ l, kv.1 ≠ k) : lookupKey k l = none := by
  induction l with
  | nil => rfl
  | cons kv rest ih =>
      have h1 : ¬ (k = kv.1) := fun hc => h kv (by simp) hc.symm
      show (if k = kv.1 then some kv.2 else lookupKey k rest) = none
      rw [if_neg h1]
      exact ih fun x hx => h x (by simp [hx])

lemma lookupKey_pairs_odd {g h : ℕ → NPVal R} {n c : ℕ} (hc : c < n) :
    lookupKey (2 * c + 1)
      ((List.range n).flatMap fun e => [(2 * e + 1, g e), (2 * e + 2, h e)]) =
      some (g c) := by
  induction n with
  | zero => omega
  | succ n ih =>
      rw [List.range_succ, List.flatMap_append, lookupKey_append]
      rcases Nat.lt_or_ge c n with hcn | hcn
      · rw [ih hcn]
      · have hc2 : c = n := by omega
        subst hc2
        have hnone : lookupKey (2 * c + 1)
            ((List.range c).flatMap fun e =>
              [(2 * e + 1, g e), (2 * e + 2, h e)]) = none := by
          apply lookupKey_none
          intro kv hkv
          rw [List.mem_flatMap] at hkv
          obtain ⟨e, he, hkv⟩ := hkv
          rw [List.mem_range] at he
          have hkv2 : kv = (2 * e + 1, g e) ∨ kv = (2 * e + 2, h e) := by
            simpa using hkv
          rcases hkv2 with rfl | rfl
          · show 2 * e + 1 ≠ 2 * c + 1
            omega
          · show 2 * e + 2 ≠ 2 * c + 1
            omega
        rw [hnone]
        simp [lookupKey]

lemma lookupKey_pairs_even {g h : ℕ → NPVal R} {n c : ℕ} (hc : c < n) :
    lookupKey (2 * c + 2)
      ((List.range n).flatMap fun e => [(2 * e + 1, g e), (2 * e + 2, h e)]) =
      some (h c) := by
  induction n with
  | zero => omega
  | succ n ih =>
      rw [List.range_succ, List.flatMap_append, lookupKey_append]
      rcases Nat.lt_or_ge c n with hcn | hcn
      · rw [ih hcn]
      · have hc2 : c = n := by omega
        subst hc2
        have hnone : lookupKey (2 * c + 2)
            ((List.range c).flatMap fun e =>
              [(2 * e + 1, g e), (2 * e + 2, h e)]) = none := by
          apply lookupKey_none
          intro kv hkv
          rw [List.mem_flatMap] at hkv
          obtain ⟨e, he, hkv⟩ := hkv
          rw [List.mem_range] at he
          have hkv2 : kv = (2 * e + 1, g e) ∨ kv = (2 * e + 2, h e) := by
            simpa using hkv
          rcases hkv2 with rfl | rfl
          · show 2 * e + 1 ≠ 2 * c + 2
            omega
          · show 2 * e + 2 ≠ 2 * c + 2
            omega
        rw [hnone]
        have hne : ¬ (2 * c + 2 = 2 * c + 1) := by omega
        simp [lookupKey, hne]

/-- The quadrature operator the dictionary of `nQudit_quadratures` stores
under key `i + 1` (`i` the 0-based row/column of the covariance matrix):
the X-type tensor at site `i/2` for even `i`, the Z-type tensor at site
`i/2` for odd `i`. -/
def quadOp (ω : R) (d n i : ℕ) : NPVal R :=
  if i % 2 = 0 then generate_nQudit_X R d (stdBasisList n (i / 2))
  else generate_nQudit_Z ω d (stdBasisList n (i / 2))

lemma dictGet_quadratures (ω : R) {d n i : ℕ} (hi : i < 2 * n) :
    dictGet (nQudit_quadratures ω d n) (i + 1) = quadOp ω d n i := by
  unfold dictGet nQudit_quadratures quadOp
  by_cases hpar : i % 2 = 0
  · have hc : i = 2 * (i / 2) := by omega
    have hc2 : i / 2 < n := by omega
    have hkey : i + 1 = 2 * (i / 2) + 1 := by omega
    rw [hkey, lookupKey_pairs_odd hc2, if_pos hpar]
  · have hc : i = 2 * (i / 2) + 1 := by omega
    have hc2 : i / 2 < n := by omega
    have hkey : i + 1 = 2 * (i / 2) + 2 := by omega
    rw [hkey, lookupKey_pairs_even hc2, if_neg hpar]

end Quadratures

/-- Claim C4, counterexample to the "real-valued" part: at `d = 2`,
`n = 1`, `X = i·Id` the covariance matrix has the non-real entry
`V[0,0] = 2i`. -/
theorem claim_C4_counterexample :
    nQudit_cov_matrix (wexp 2) (NPVal.mat 2 2
      (Complex.I • (1 : Matrix (Fin 2) (Fin 2) ℂ))) 2 1 0 0 =
      2 * Complex.I ∧ (2 * Complex.I).im ≠ 0 := by
  constructor
  · have hidx : ((0 : Fin (2 * 1)) : ℕ) + 1 = 1 := rfl
    have hS : dictGet (nQudit_quadratures (wexp 2) 2 1) 1 =
        generate_nQudit_X ℂ 2 (stdBasisList 1 0) := by
      have h0 : (0 : ℕ) < 2 * 1 := by norm_num
      have := dictGet_quadratures (wexp 2) (d := 2) (n := 1) (i := 0) h0
      rw [this]
      rfl
    have hstd : stdBasisList 1 0 = [1] := rfl
    have hgen : generate_nQudit_X ℂ 2 [1] =
        NPVal.mat 2 2 (discrete_Weyl_X ℂ 2) := by
      show NPVal.mat 2 2 ((1 : ℂ) • (discrete_Weyl_X ℂ 2 ^ 1)) =
        NPVal.mat 2 2 (discrete_Weyl_X ℂ 2)
      rw [one_smul, pow_one]
    have hXu : discrete_Weyl_X ℂ 2 * dag (discrete_Weyl_X ℂ 2) = 1 := by
      have h := Xpow_mul_dag (R := ℂ) (le_refl 2) 1
      rwa [pow_one] at h
    unfold nQudit_cov_matrix
    rw [Matrix.of_apply, hidx, hS, hstd, hgen, matmul_mat, dagv_mat,
      matmul_mat, tr_mat, mul_assoc, hXu, mul_one, Matrix.trace_smul,
      Matrix.trace_one]
    simp [Complex.ext_iff]
  · simp

/-- Claim C4, amended: for every `d ≥ 2`, `n ≥ 1` and operator `X`, the
covariance matrix (stored complex; its entries are NOT real in general)
has entry `V[i,j] = Tr(X @ S[i+1] @ dag(S[j+1]))`, where `S[2c+1]` is the
X-type and `S[2c+2]` the Z-type quadrature at site `c`. -/
theorem claim_C4_amended (d n : ℕ) (hd : 2 ≤ d) (hn : 1 ≤ n) (X : NPVal ℂ)
    (i j : Fin (2 * n)) :
    nQudit_cov_matrix (wexp d) X d n i j =
      NPVal.tr (NPVal.matmul
        (NPVal.matmul X (quadOp (wexp d) d n (i : ℕ)))
        (NPVal.dagv (quadOp (wexp d) d n (j : ℕ)))) := by
  unfold nQudit_cov_matrix
  rw [Matrix.of_apply, dictGet_quadratures (wexp d) i.isLt,
    dictGet_quadratures (wexp d) j.isLt]

/-- Witness for the amended C4 at the concrete input `d = 2`, `n = 1`,
`X = scalar 0`, `i = 0`, `j = 1`. -/
theorem claim_C4_amended_witness :
    nQudit_cov_matrix (wexp 2) (NPVal.scalar 0) 2 1 0 1 =
      NPVal.tr (NPVal.matmul
        (NPVal.matmul (NPVal.scalar 0) (quadOp (wexp 2) 2 1 ((0 : Fin (2 * 1)) : ℕ)))
        (NPVal.dagv (quadOp (wexp 2) 2 1 ((1 : Fin (2 * 1)) : ℕ)))) :=
  claim_C4_amended 2 1 (by norm_num) (by norm_num) (NPVal.scalar 0) 0 1

section PauliZ

variable {R : Type} [Field R] [StarRing R]

lemma pauliZfold_error (acc : NPVal R) (l1 l2 : List ℤ) (bad : ℤ)
    (h1 : ∀ x ∈ l1, x = 0 ∨ x = 1) (hb0 : bad ≠ 0) (hb1 : bad ≠ 1) :
    pauliZfold R acc (l1 ++ bad :: l2) =
      Except.error "Error: Indices must be bits, either 0 or 1!" := by
  induction l1 generalizing acc with
  | nil =>
      show pauliZfold R acc (bad :: l2) = _
      unfold pauliZfold
      rw [if_neg hb0, if_neg hb1]
  | cons a t ih =>
      rcases h1 a (by simp) with rfl | rfl
      · show pauliZfold R acc ((0 : ℤ) :: (t ++ bad :: l2)) = _
        unfold pauliZfold
        rw [if_pos rfl]
        exact ih _ fun x hx => h1 x (by simp [hx])
      · show pauliZfold R acc ((1 : ℤ) :: (t ++ bad :: l2)) = _
        unfold pauliZfold
        rw [if_neg (by norm_num), if_pos rfl]
        exact ih _ fun x hx => h1 x (by simp [hx])

lemma pauliZfold_ok (acc : NPVal R) (l : List ℤ)
    (h : ∀ x ∈ l, x = 0 ∨ x = 1) :
    pauliZfold R acc l = Except.ok (List.foldl
      (fun out x => NPVal.tensor out
        (NPVal.mat 2 2 (if x = 0 then eye R 2 else Sz R))) acc l) := by
  induction l generalizing acc with
  | nil => rfl
  | cons a t ih =>
      rcases h a (by simp) with rfl | rfl
      · show pauliZfold R acc ((0 : ℤ) :: t) = _
        unfold pauliZfold
        rw [if_pos rfl, List.foldl_cons, if_pos rfl]
        exact ih _ fun x hx => h x (by simp [hx])
      · show pauliZfold R acc ((1 : ℤ) :: t) = _
        unfold pauliZfold
        rw [if_neg (by norm_num), if_pos rfl, List.foldl_cons,
          if_neg (by norm_num)]
        exact ih _ fun x hx => h x (by simp [hx])

end PauliZ

/-- Claim C10.  Error handling of `generate_nQubit_Pauli_Z`: a list
containing a non-bit element makes the function return the error string
(as a value, not an exception) at the first such element — the result
does not depend on anything after it; a list of bits produces the tensor
fold of identity and Pauli-Z factors from the scalar `1`. -/
theorem claim_C10 :
    (∀ (l1 l2 : List ℤ) (bad : ℤ), (∀ x ∈ l1, x = 0 ∨ x = 1) →
      bad ≠ 0 → bad ≠ 1 →
      generate_nQubit_Pauli_Z ℚ (l1 ++ bad :: l2) =
        Except.error "Error: Indices must be bits, either 0 or 1!") ∧
    (∀ l : List ℤ, (∀ x ∈ l, x = 0 ∨ x = 1) →
      generate_nQubit_Pauli_Z ℚ l = Except.ok (List.foldl
        (fun out x => NPVal.tensor out
          (NPVal.mat 2 2 (if x = 0 then eye ℚ 2 else Sz ℚ)))
        (NPVal.scalar 1) l)) := by
  constructor
  · intro l1 l2 bad h1 hb0 hb1
    exact pauliZfold_error _ l1 l2 bad h1 hb0 hb1
  · intro l h
    exact pauliZfold_ok _ l h

/-- Witness for C10: the list `[0, 1, 5, 1]` errors out (independently of
the tail after the invalid element `5`), and the bit list `[0, 1]`
produces the tensor fold. -/
theorem claim_C10_witness :
    (generate_nQubit_Pauli_Z ℚ ([0, 1] ++ (5 : ℤ) :: [1]) =
      Except.error "Error: Indices must be bits, either 0 or 1!") ∧
    (generate_nQubit_Pauli_Z ℚ [0, 1] = Except.ok (List.foldl
      (fun out x => NPVal.tensor out
        (NPVal.mat 2 2 (if x = 0 then eye ℚ 2 else Sz ℚ)))
      (NPVal.scalar 1) [0, 1])) :=
  ⟨claim_C10.1 [0, 1] [1] 5 (by decide) (by decide) (by decide),
   claim_C10.2 [0, 1] (by decide)⟩

section CNOTLemmas

variable {R : Type} [Field R] [StarRing R]

lemma kron_apply {m n p q : ℕ} (A : Matrix (Fin m) (Fin n) R)
    (B : Matrix (Fin p) (Fin q) R) (i : Fin (m * p)) (j : Fin (n * q)) :
    kron A B i j =
      entryN A ((i : ℕ) / p) ((j : ℕ) / q) *
        entryN B ((i : ℕ) % p) ((j : ℕ) % q) := rfl

lemma entryN_mul {m n r : ℕ} (A : Matrix (Fin m) (Fin n) R)
    (C : Matrix (Fin n) (Fin r) R) {i j : ℕ} (hi : i < m) (hj : j < r) :
    entryN (A * C) i j = ∑ c : Fin n, entryN A i (c : ℕ) * entryN C (c : ℕ) j := by
  unfold entryN
  rw [dif_pos ⟨hi, hj⟩, Matrix.mul_apply]
  apply Finset.sum_congr rfl
  intro c _
  rw [dif_pos ⟨hi, c.isLt⟩, dif_pos ⟨c.isLt, hj⟩]

lemma kron_mul_kron {m n r p q s : ℕ} (A : Matrix (Fin m) (Fin n) R)
    (B : Matrix (Fin p) (Fin q) R) (C : Matrix (Fin n) (Fin r) R)
    (D : Matrix (Fin q) (Fin s) R) :
    kron A B * kron C D = kron (A * C) (B * D) := by
  ext i j
  have hp : 0 < p := by
    rcases Nat.eq_zero_or_pos p with h | h
    · exfalso
      subst h
      have := i.isLt
      omega
    · exact h
  have hs : 0 < s := by
    rcases Nat.eq_zero_or_pos s with h | h
    · exfalso
      subst h
      have := j.isLt
      omega
    · exact h
  have hidiv : (i : ℕ) / p < m :=
    Nat.div_lt_of_lt_mul (Nat.lt_of_lt_of_eq i.isLt (Nat.mul_comm m p))
  have himod : (i : ℕ) % p < p := Nat.mod_lt _ hp
  have hjdiv : (j : ℕ) / s < r :=
    Nat.div_lt_of_lt_mul (Nat.lt_of_lt_of_eq j.isLt (Nat.mul_comm r s))
  have hjmod : (j : ℕ) % s < s := Nat.mod_lt _ hs
  rw [Matrix.mul_apply]
  have hre : ∑ c : Fin (n * q), kron A B i c * kron C D c j =
      ∑ x : Fin n × Fin q,
        kron A B i (finProdFinEquiv x) * kron C D (finProdFinEquiv x) j :=
    (Equiv.sum_comp finProdFinEquiv
      fun c => kron A B i c * kron C D c j).symm
  rw [hre, Fintype.sum_prod_type]
  have hterm : ∀ (c1 : Fin n) (c2 : Fin q),
      kron A B i (finProdFinEquiv (c1, c2)) *
        kron C D (finProdFinEquiv (c1, c2)) j =
      (entryN A ((i : ℕ) / p) (c1 : ℕ) * entryN C (c1 : ℕ) ((j : ℕ) / s)) *
        (entryN B ((i : ℕ) % p) (c2 : ℕ) * entryN D (c2 : ℕ) ((j : ℕ) % s)) := by
    intro c1 c2
    have hq : 0 < q := c2.pos
    have hdivq : ((c2 : ℕ) + q * (c1 : ℕ)) / q = (c1 : ℕ) := by
      rw [Nat.add_mul_div_left _ _ hq, Nat.div_eq_of_lt c2.isLt, Nat.zero_add]
    have hmodq : ((c2 : ℕ) + q * (c1 : ℕ)) % q = (c2 : ℕ) := by
      rw [Nat.add_mul_mod_self_left, Nat.mod_eq_of_lt c2.isLt]
    have hAB : kron A B i (finProdFinEquiv (c1, c2)) =
        entryN A ((i : ℕ) / p) (c1 : ℕ) * entryN B ((i : ℕ) % p) (c2 : ℕ) := by
      show entryN A ((i : ℕ) / p) (((c2 : ℕ) + q * (c1 : ℕ)) / q) *
        entryN B ((i : ℕ) % p) (((c2 : ℕ) + q * (c1 : ℕ)) % q) = _
      rw [hdivq, hmodq]
    have hCD : kron C D (finProdFinEquiv (c1, c2)) j =
        entryN C (c1 : ℕ) ((j : ℕ) / s) * entryN D (c2 : ℕ) ((j : ℕ) % s) := by
      show entryN C (((c2 : ℕ) + q * (c1 : ℕ)) / q) ((j : ℕ) / s) *
        entryN D (((c2 : ℕ) + q * (c1 : ℕ)) % q) ((j : ℕ) % s) = _
      rw [hdivq, hmodq]
    rw [hAB, hCD]
    ring
  rw [Finset.sum_congr rfl fun c1 _ =>
    Finset.sum_congr rfl fun c2 _ => hterm c1 c2]
  rw [kron_apply, entryN_mul A C hidiv hjdiv, entryN_mul B D himod hjmod,
    Finset.sum_mul_sum]

lemma mul_ket {d : ℕ} (M : Matrix (Fin d) (Fin d) R) {j : ℕ} (hj : j < d) :
    M * ket R d j = Matrix.of fun a (_ : Fin 1) => M a ⟨j, hj⟩ := by
  ext a z
  rw [Matrix.mul_apply, Matrix.of_apply]
  rw [Finset.sum_eq_single (⟨j, hj⟩ : Fin d)]
  · show M a ⟨j, hj⟩ * (if ((⟨j, hj⟩ : Fin d) : ℕ) = j then (1 : R) else 0) =
      M a ⟨j, hj⟩
    rw [if_pos rfl, mul_one]
  · intro c _ hc
    have hcj : ¬ ((c : ℕ) = j) := fun h => hc (Fin.ext h)
    show M a c * (if (c : ℕ) = j then (1 : R) else 0) = 0
    rw [if_neg hcj, mul_zero]
  · intro habs
    exact absurd (Finset.mem_univ _) habs

lemma Xpow_mul_ket {d : ℕ} (hd : 2 ≤ d) (x : ℕ) {j : ℕ} (hj : j < d) :
    discrete_Weyl_X R d ^ x * ket R d j = ket R d ((j + x) % d) := by
  rw [mul_ket _ hj]
  ext a z
  rw [Matrix.of_apply, discrete_Weyl_X_pow_apply hd]
  rfl

lemma npMod_zero {d : ℕ} : npMod (-(0 : ℤ)) d = 0 := by
  unfold npMod
  simp

lemma npMod_lt {a : ℤ} {d : ℕ} (hd : 0 < d) : npMod a d < d := by
  unfold npMod
  have h1 : (0 : ℤ) < (d : ℤ) := by exact_mod_cast hd
  have h2 : a % (d : ℤ) < d := Int.emod_lt_of_pos a h1
  have h3 : (0 : ℤ) ≤ a % (d : ℤ) := Int.emod_nonneg a (by omega)
  omega

lemma flip_sign_apply {d : ℕ} (hd : 1 ≤ d) (a b : Fin d) :
    flip_sign R d a b =
      if (a : ℕ) = npMod (-((b : ℕ) : ℤ)) d then 1 else 0 := by
  unfold flip_sign
  rw [Matrix.add_apply, Matrix.sum_apply]
  simp only [outer_apply]
  rcases Nat.eq_zero_or_pos (b : ℕ) with hb | hb
  · rw [Finset.sum_eq_zero]
    · rw [hb]
      have hz : npMod (-((0 : ℕ) : ℤ)) d = 0 := by
        unfold npMod
        simp
      rw [hz]
      simp
    · intro i hi
      rw [Finset.mem_Ico] at hi
      have hbi : ¬ ((b : ℕ) = i) := by omega
      simp [hbi]
  · rw [Finset.sum_eq_single_of_mem (b : ℕ)
      (Finset.mem_Ico.mpr ⟨hb, b.isLt⟩)]
    · have hb0 : ¬ ((b : ℕ) = 0) := by omega
      simp [hb0]
    · intro i _ hi
      have hbi : ¬ ((b : ℕ) = i) := fun h => hi h.symm
      simp [hbi]

lemma flip_mul_ket {d : ℕ} (hd : 1 ≤ d) {j : ℕ} (hj : j < d) :
    flip_sign R d * ket R d j = ket R d (npMod (-(j : ℤ)) d) := by
  rw [mul_ket _ hj]
  ext a z
  rw [Matrix.of_apply, flip_sign_apply hd]
  rfl

lemma outer_mul_ket {d i : ℕ} (hi : i < d) (i0 : ℕ) (hi0 : i0 < d) :
    (ket R d i * dag (ket R d i)) * ket R d i0 =
      if i0 = i then ket R d i else 0 := by
  rw [mul_ket _ hi0]
  ext a z
  rw [Matrix.of_apply, outer_apply]
  by_cases h : i0 = i
  · rw [if_pos h, if_pos h, mul_one]
    rfl
  · rw [if_neg h, if_neg h, mul_zero, Matrix.zero_apply]

lemma kron_zero_left {m n p q : ℕ} (B : Matrix (Fin p) (Fin q) R) :
    kron (0 : Matrix (Fin m) (Fin n) R) B = 0 := by
  ext i j
  show entryN (0 : Matrix (Fin m) (Fin n) R) ((i : ℕ) / p) ((j : ℕ) / q) * _ =
    _
  unfold entryN
  by_cases h : (i : ℕ) / p < m ∧ (j : ℕ) / q < n
  · rw [dif_pos h, Matrix.zero_apply, zero_mul, Matrix.zero_apply]
  · rw [dif_neg h, zero_mul, Matrix.zero_apply]

lemma eye_mul_ket {d : ℕ} {j : ℕ} (hj : j < d) :
    eye R d * ket R d j = ket R d j := by
  unfold eye
  rw [Matrix.one_mul]

lemma npMod_shift {d i j : ℕ} (hd : 0 < d) :
    (npMod (-(j : ℤ)) d + i) % d = npMod ((i : ℤ) - (j : ℤ)) d := by
  unfold npMod
  have hdz : ((d : ℤ)) ≠ 0 := by
    have : (0 : ℤ) < (d : ℤ) := by exact_mod_cast hd
    omega
  have h1 : (0 : ℤ) ≤ (-(j : ℤ)) % d := Int.emod_nonneg _ hdz
  have key : (((((-(j : ℤ)) % d).toNat + i) % d : ℕ) : ℤ) =
      ((i : ℤ) - j) % d := by
    push_cast [Int.toNat_of_nonneg h1]
    rw [Int.emod_add_emod]
    congr 1
    ring
  have h4 := congrArg Int.toNat key
  rwa [Int.toNat_natCast] at h4

end CNOTLemmas

/-- Claim C5.  Qudit CNOT structure and semantics: for every `d ≥ 2` the
gate is the block sum over `i < d` of `|i><i| ⊗ W_i` with `W_0 = eye(d)`
and, for `i ≥ 1`, `W_i = X^i @ flip_sign(d)` (default) or `W_i = X^i`
(`alt = True`); consequently, for `1 ≤ i < d` and `j < d`, the default
gate maps `|i>|j>` to `|i>|(i-j) mod d>` and the `alt` gate maps it to
`|i>|(i+j) mod d>`. -/
theorem claim_C5 (d : ℕ) (hd : 2 ≤ d) :
    (∀ alt : Bool, CNOT_qudit ℂ d alt =
      ∑ i ∈ Finset.range d,
        kron (ket ℂ d i * dag (ket ℂ d i))
          (if i = 0 then eye ℂ d
           else if alt then discrete_Weyl_X ℂ d ^ i
           else discrete_Weyl_X ℂ d ^ i * flip_sign ℂ d)) ∧
    (∀ i j : ℕ, 1 ≤ i → i < d → j < d →
      CNOT_qudit ℂ d false * kron (ket ℂ d i) (ket ℂ d j) =
        kron (ket ℂ d i) (ket ℂ d (npMod ((i : ℤ) - (j : ℤ)) d))) ∧
    (∀ i j : ℕ, 1 ≤ i → i < d → j < d →
      CNOT_qudit ℂ d true * kron (ket ℂ d i) (ket ℂ d j) =
        kron (ket ℂ d i) (ket ℂ d ((i + j) % d))) := by
  have hd0 : 0 < d := by omega
  have hCf : CNOT_qudit ℂ d false =
      kron (ket ℂ d 0 * dag (ket ℂ d 0)) (eye ℂ d) +
        ∑ i ∈ Finset.Ico 1 d,
          kron (ket ℂ d i * dag (ket ℂ d i))
            (discrete_Weyl_X ℂ d ^ i * flip_sign ℂ d) := rfl
  have hCt : CNOT_qudit ℂ d true =
      kron (ket ℂ d 0 * dag (ket ℂ d 0)) (eye ℂ d) +
        ∑ i ∈ Finset.Ico 1 d,
          kron (ket ℂ d i * dag (ket ℂ d i)) (discrete_Weyl_X ℂ d ^ i) := rfl
  refine ⟨?_, ?_, ?_⟩
  · intro alt
    cases alt
    · rw [hCf, Finset.range_eq_Ico, Finset.sum_eq_sum_Ico_succ_bot hd0,
        if_pos rfl]
      congr 1
      apply Finset.sum_congr rfl
      intro i hi
      rw [Finset.mem_Ico] at hi
      rw [if_neg (by omega : ¬ i = 0), if_neg Bool.false_ne_true]
    · rw [hCt, Finset.range_eq_Ico, Finset.sum_eq_sum_Ico_succ_bot hd0,
        if_pos rfl]
      congr 1
      apply Finset.sum_congr rfl
      intro i hi
      rw [Finset.mem_Ico] at hi
      rw [if_neg (by omega : ¬ i = 0), if_pos rfl]
  · intro i j hi1 hi hj
    rw [hCf, Matrix.add_mul, Matrix.sum_mul, kron_mul_kron,
      outer_mul_ket hd0 i hi, if_neg (by omega), kron_zero_left, zero_add]
    rw [Finset.sum_eq_single_of_mem i (Finset.mem_Ico.mpr ⟨hi1, hi⟩)]
    · rw [kron_mul_kron, outer_mul_ket hi i hi, if_pos rfl, Matrix.mul_assoc,
        flip_mul_ket (by omega) hj, Xpow_mul_ket hd i (npMod_lt hd0),
        npMod_shift hd0]
    · intro x hx hxi
      rw [Finset.mem_Ico] at hx
      rw [kron_mul_kron, outer_mul_ket hx.2 i hi, if_neg (fun h => hxi h.symm),
        kron_zero_left]
  · intro i j hi1 hi hj
    rw [hCt, Matrix.add_mul, Matrix.sum_mul, kron_mul_kron,
      outer_mul_ket hd0 i hi, if_neg (by omega), kron_zero_left, zero_add]
    rw [Finset.sum_eq_single_of_mem i (Finset.mem_Ico.mpr ⟨hi1, hi⟩)]
    · rw [kron_mul_kron, outer_mul_ket hi i hi, if_pos rfl,
        Xpow_mul_ket hd i hj, Nat.add_comm j i]
    · intro x hx hxi
      rw [Finset.mem_Ico] at hx
      rw [kron_mul_kron, outer_mul_ket hx.2 i hi, if_neg (fun h => hxi h.symm),
        kron_zero_left]

/-- Witness for C5 at the concrete dimension `d = 3`. -/
theorem claim_C5_witness :
    (∀ alt : Bool, CNOT_qudit ℂ 3 alt =
      ∑ i ∈ Finset.range 3,
        kron (ket ℂ 3 i * dag (ket ℂ 3 i))
          (if i = 0 then eye ℂ 3
           else if alt then discrete_Weyl_X ℂ 3 ^ i
           else discrete_Weyl_X ℂ 3 ^ i * flip_sign ℂ 3)) ∧
    (∀ i j : ℕ, 1 ≤ i → i < 3 → j < 3 →
      CNOT_qudit ℂ 3 false * kron (ket ℂ 3 i) (ket ℂ 3 j) =
        kron (ket ℂ 3 i) (ket ℂ 3 (npMod ((i : ℤ) - (j : ℤ)) 3))) ∧
    (∀ i j : ℕ, 1 ≤ i → i < 3 → j < 3 →
      CNOT_qudit ℂ 3 true * kron (ket ℂ 3 i) (ket ℂ 3 j) =
        kron (ket ℂ 3 i) (ket ℂ 3 ((i + j) % 3))) :=
  claim_C5 3 (by norm_num)

/-- Claim C6.  Qubit specialization: both `CNOT_qudit(2, alt=False)` and
`CNOT_qudit(2, alt=True)` equal the standard two-qubit CNOT matrix. -/
theorem claim_C6 :
    CNOT_qudit ℂ 2 false =
      Matrix.of ![![1, 0, 0, 0], ![0, 1, 0, 0], ![0, 0, 0, 1], ![0, 0, 1, 0]] ∧
    CNOT_qudit ℂ 2 true =
      Matrix.of ![![1, 0, 0, 0], ![0, 1, 0, 0], ![0, 0, 0, 1], ![0, 0, 1, 0]] := by
  have hP2 : flip_sign ℂ 2 = 1 := by
    ext a b
    rw [flip_sign_apply (by norm_num)]
    fin_cases a <;> fin_cases b <;>
      simp [npMod, Matrix.one_apply]
  have hCf : CNOT_qudit ℂ 2 false =
      kron (ket ℂ 2 0 * dag (ket ℂ 2 0)) (eye ℂ 2) +
        kron (ket ℂ 2 1 * dag (ket ℂ 2 1)) (discrete_Weyl_X ℂ 2) := by
    have h1 : CNOT_qudit ℂ 2 false =
        kron (ket ℂ 2 0 * dag (ket ℂ 2 0)) (eye ℂ 2) +
          ∑ i ∈ Finset.Ico 1 2,
            kron (ket ℂ 2 i * dag (ket ℂ 2 i))
              (discrete_Weyl_X ℂ 2 ^ i * flip_sign ℂ 2) := rfl
    rw [h1, show Finset.Ico 1 2 = {1} from rfl, Finset.sum_singleton,
      pow_one, hP2, mul_one]
  have hCt : CNOT_qudit ℂ 2 true =
      kron (ket ℂ 2 0 * dag (ket ℂ 2 0)) (eye ℂ 2) +
        kron (ket ℂ 2 1 * dag (ket ℂ 2 1)) (discrete_Weyl_X ℂ 2) := by
    have h1 : CNOT_qudit ℂ 2 true =
        kron (ket ℂ 2 0 * dag (ket ℂ 2 0)) (eye ℂ 2) +
          ∑ i ∈ Finset.Ico 1 2,
            kron (ket ℂ 2 i * dag (ket ℂ 2 i))
              (discrete_Weyl_X ℂ 2 ^ i) := rfl
    rw [h1, show Finset.Ico 1 2 = {1} from rfl, Finset.sum_singleton, pow_one]
  have hmain : kron (ket ℂ 2 0 * dag (ket ℂ 2 0)) (eye ℂ 2) +
      kron (ket ℂ 2 1 * dag (ket ℂ 2 1)) (discrete_Weyl_X ℂ 2) =
      Matrix.of ![![1, 0, 0, 0], ![0, 1, 0, 0], ![0, 0, 0, 1], ![0, 0, 1, 0]] := by
    ext a b
    rw [Matrix.add_apply, kron_apply, kron_apply]
    fin_cases a <;> fin_cases b <;>
      norm_num [entryN, outer_apply, eye, Matrix.one_apply,
        discrete_Weyl_X_apply (le_refl 2), Matrix.of_apply,
        Matrix.cons_val_zero, Matrix.cons_val_one, Matrix.head_cons]
  exact ⟨hCf.trans hmain, hCt.trans hmain⟩

/-- Claim C7.  Single-qudit Weyl basis: for every `d ≥ 2`,
`discrete_Weyl_basis(d)` has exactly `d^2` elements, each element is
unitary, and the elements are pairwise trace-orthogonal with
`Tr(dag(B[a]) @ B[b]) = 0` for `a ≠ b` and `= d` for `a = b`. -/
theorem claim_C7 (d : ℕ) (hd : 2 ≤ d) :
    (discrete_Weyl_basis (wexp d) d).length = d ^ 2 ∧
    (∀ M ∈ discrete_Weyl_basis (wexp d) d, M * dag M = 1) ∧
    (∀ a b : ℕ, a < d ^ 2 → b < d ^ 2 →
      Matrix.trace (dag ((discrete_Weyl_basis (wexp d) d).getD a 0) *
        (discrete_Weyl_basis (wexp d) d).getD b 0) =
        if a = b then (d : ℂ) else 0) := by
  refine ⟨discrete_Weyl_basis_length (wexp d) d, ?_, ?_⟩
  · intro M hM
    unfold discrete_Weyl_basis at hM
    rw [List.mem_flatMap] at hM
    obtain ⟨z, _, hM⟩ := hM
    rw [List.mem_map] at hM
    obtain ⟨x, _, rfl⟩ := hM
    exact weyl_mul_dag hd star_wexp_mul_self z x
  · intro a b ha hb
    have hd0 : 0 < d := by omega
    rw [discrete_Weyl_basis_getD (wexp d) ha 0,
      discrete_Weyl_basis_getD (wexp d) hb 0,
      weyl_trace_orth hd (wexp_pow_self (by omega)) star_wexp_mul_self
        (fun m hm hmd => wexp_sum_zero hm hmd)
        (Nat.div_lt_of_lt_mul (by rw [← pow_two]; exact ha))
        (Nat.mod_lt _ hd0)
        (Nat.div_lt_of_lt_mul (by rw [← pow_two]; exact hb))
        (Nat.mod_lt _ hd0)]
    by_cases hab : a = b
    · subst hab
      rw [if_pos ⟨rfl, rfl⟩, if_pos rfl]
    · rw [if_neg, if_neg hab]
      rintro ⟨h1, h2⟩
      apply hab
      calc a = d * (a / d) + a % d := (Nat.div_add_mod a d).symm
        _ = d * (b / d) + b % d := by rw [h1, h2]
        _ = b := Nat.div_add_mod b d

/-- Witness for C7 at the concrete dimension `d = 2`. -/
theorem claim_C7_witness :
    (discrete_Weyl_basis (wexp 2) 2).length = 2 ^ 2 ∧
    (∀ M ∈ discrete_Weyl_basis (wexp 2) 2, M * dag M = 1) ∧
    (∀ a b : ℕ, a < 2 ^ 2 → b < 2 ^ 2 →
      Matrix.trace (dag ((discrete_Weyl_basis (wexp 2) 2).getD a 0) *
        (discrete_Weyl_basis (wexp 2) 2).getD b 0) =
        if a = b then (2 : ℂ) else 0) := by
  have h := claim_C7 2 (by norm_num)
  exact ⟨h.1, h.2.1, fun a b ha hb => by
    have h3 := h.2.2 a b ha hb
    simpa using h3⟩

/-- Claim C2.  Weyl commutation relation: for every `d ≥ 2` the matrices
`X = discrete_Weyl_X(d)` and `Z = discrete_Weyl_Z(d)` satisfy
`Z @ X = ω · (X @ Z)` with `ω = exp(2πi/d)` (exactly, in ideal complex
arithmetic). -/
theorem claim_C2 (d : ℕ) (hd : 2 ≤ d) :
    discrete_Weyl_Z (wexp d) d * discrete_Weyl_X ℂ d =
      wexp d • (discrete_Weyl_X ℂ d * discrete_Weyl_Z (wexp d) d) :=
  weyl_commutation hd (wexp_pow_self (by omega))

/-- Witness for C2 at the concrete dimension `d = 2`. -/
theorem claim_C2_witness :
    discrete_Weyl_Z (wexp 2) 2 * discrete_Weyl_X ℂ 2 =
      wexp 2 • (discrete_Weyl_X ℂ 2 * discrete_Weyl_Z (wexp 2) 2) :=
  claim_C2 2 (by norm_num)

end QuTIpy
